import Mathlib

/-!
Shallow embedding of the WatchPulse backend core in Lean 4.

Source files embedded:
- backend/app/services/wait_time.py : raw aggregation, min-max normalization,
  composite scoring with banding, the stats pipeline and its persistence call.
- backend/app/ingest/validate.py : duplicate-URL check and day-over-day
  price-anomaly check.

Modelling conventions:
- Python floats become rationals; all arithmetic is exact.
- Database rows become structures; nullable columns become Option fields.
- Dates and URLs are plain strings, compared exactly as the code compares them.
- Python dicts become association lists with assignment-overwrites-in-place
  semantics (dictSet below), which preserves insertion order of keys exactly
  as Python 3.7+ dicts do.
- The stable Python list sort is modelled by insertion sort, which is also
  stable; for a total preorder the output of any stable sort is unique, so the
  two agree element by element.
- Python round uses banker's rounding at exact ties; pyRound below rounds half
  up. Every concrete value rounded in this development is away from a tie, so
  the two functions agree on all inputs appearing here.
-/

namespace WatchPulse

/-- A row of the market_listings table as fetched by the pipeline
(columns id, model_id, created_at, url). -/
structure ListingRow where
  id : ℤ
  model_id : ℤ
  created_at : Option String
  url : Option String
deriving DecidableEq

/-- A row of the listing_snapshots table as fetched by the pipeline
(columns listing_id, captured_date, price_value, availability_flag,
shipping_days_min, shipping_days_max). -/
structure SnapshotRow where
  listing_id : ℤ
  captured_date : String
  price_value : Option ℚ
  avail_flag : Option Bool
  shipping_days_min : Option ℚ
  shipping_days_max : Option ℚ
deriving DecidableEq

/-- A row of the brand_models table (columns id, msrp). -/
structure BrandModel where
  id : ℤ
  msrp : Option ℚ
deriving DecidableEq

/-- The ModelDayRaw dataclass of wait_time.py. The availability_ratio field of
the source is named avail_ratio here. -/
structure ModelDayRaw where
  model_id : ℤ
  captured_date : String
  msrp : Option ℚ
  median_price : ℚ
  listings_count : ℕ
  new_listings_count : ℕ
  sold_rate_proxy : ℚ
  premium_over_msrp : Option ℚ
  avail_ratio : ℚ
  avg_shipping_days : ℚ
deriving DecidableEq, Inhabited

/-- One output dict of _score_rows, i.e. one model_daily_stats row. -/
structure ScoredRow where
  model_id : ℤ
  captured_date : String
  median_price : ℚ
  listings_count : ℕ
  new_listings_count : ℕ
  sold_rate_proxy : ℚ
  premium_over_msrp : Option ℚ
  wait_time_index : ℚ
  wait_band : String
deriving DecidableEq, Inhabited

/-- One anomaly example dict built by _check_price_anomalies. -/
structure AnomalyEntry where
  listing_id : ℤ
  prev_price : ℚ
  curr_price : ℚ
  pct_jump : ℚ
deriving DecidableEq

/-- One duplicate-URL example dict built by _check_duplicate_urls. -/
structure DupEntry where
  url : String
  count : ℕ
deriving DecidableEq

/-- Python min over a nonempty list; the 0 default is never used by callers. -/
def pyListMin : List ℚ → ℚ
  | [] => 0
  | x :: xs => xs.foldl min x

/-- Python max over a nonempty list; the 0 default is never used by callers. -/
def pyListMax : List ℚ → ℚ
  | [] => 0
  | x :: xs => xs.foldl max x

/-- Python round(q, nd) for the non-tie arguments used in this development
(Python rounds exact ties to even, this rounds them half up; no exact tie is
rounded anywhere in this development). -/
def pyRound (q : ℚ) (nd : ℕ) : ℚ := (round (q * 10 ^ nd) : ℚ) / 10 ^ nd

/-- statistics.median: sort ascending, take the middle element when the length
is odd, the mean of the two middle elements when even. statistics.median
raises on an empty list; callers only reach it with a nonempty list, so the 0
default is unreachable. -/
def pyMedian (l : List ℚ) : ℚ :=
  let s := List.insertionSort (fun a b : ℚ => a ≤ b) l
  let n := s.length
  if n % 2 = 1 then s.getD (n / 2) 0
  else (s.getD (n / 2 - 1) 0 + s.getD (n / 2) 0) / 2

/-- Python str.strip(): drop leading and trailing whitespace. Written over the
character list so that it evaluates by kernel reduction. -/
def pyStrip (s : String) : String :=
  ⟨((s.data.dropWhile Char.isWhitespace).reverse.dropWhile Char.isWhitespace).reverse⟩

/-- max(0.0, min(1.0, q)) as applied to the composite index. -/
def clampUnit (q : ℚ) : ℚ := max 0 (min 1 q)

/-- _normalize of wait_time.py: min-max scale a feature column; an empty batch
gives an empty list, a constant batch gives all zeros. -/
def _normalize (values : List ℚ) : List ℚ :=
  if values = [] then []
  else
    let low := pyListMin values
    let high := pyListMax values
    if high = low then values.map (fun _ => 0)
    else values.map (fun v => (v - low) / (high - low))

/-- _wait_band of wait_time.py: five ordinal bands by strict less-than against
ascending thresholds. -/
def _wait_band (index : ℚ) : String :=
  if index < 0.25 then "0-6 months"
  else if index < 0.45 then "6-18 months"
  else if index < 0.65 then "18 months-3 years"
  else if index < 0.85 then "3-5 years"
  else "5-8+ years"

/-- The truthiness test bool(row.get("availability_flag")). -/
def snapAvailable (s : SnapshotRow) : Bool := s.avail_flag = some true

/-- The created-today test of _calc_model_raw:
row.get("created_at") and str(row["created_at"])[:10] == captured_date.isoformat().
An absent or empty created_at is falsy and never counts. -/
def createdOn (l : ListingRow) (captured_date : String) : Bool :=
  match l.created_at with
  | some s => (s != "") && (s.take 10 == captured_date)
  | none => false

/-- _calc_model_raw of wait_time.py: reduce the listings of one model and the
snapshot rows of one date to a raw feature record, or none when no matching
snapshot carries a non-null price. -/
def _calc_model_raw (model_id : ℤ) (msrp : Option ℚ) (listing_rows : List ListingRow)
    (snapshot_rows : List SnapshotRow) (captured_date : String) : Option ModelDayRaw :=
  let listing_ids := listing_rows.map (fun l => l.id)
  if listing_ids = [] then none
  else
    let snapshots := snapshot_rows.filter (fun s => s.listing_id ∈ listing_ids)
    if snapshots = [] then none
    else
      let prices := snapshots.filterMap (fun s => s.price_value)
      if prices = [] then none
      else
        let listings_count := snapshots.length
        let available_count := (snapshots.filter snapAvailable).length
        let avail_ratio : ℚ :=
          if listings_count = 0 then 0 else (available_count : ℚ) / (listings_count : ℚ)
        let sold_rate_proxy := 1 - avail_ratio
        let created_today := (listing_rows.filter (fun l => createdOn l captured_date)).length
        let shipping_values := snapshots.filterMap (fun s =>
          match s.shipping_days_min, s.shipping_days_max with
          | some a, some b => some ((a + b) / 2)
          | _, _ => none)
        let avg_shipping_days : ℚ :=
          if shipping_values = [] then 7 else shipping_values.sum / (shipping_values.length : ℚ)
        let median_price := pyMedian prices
        let premium_over_msrp : Option ℚ :=
          match msrp with
          | some m => if 0 < m then some (median_price / m - 1) else none
          | none => none
        some
          { model_id := model_id
            captured_date := captured_date
            msrp := msrp
            median_price := median_price
            listings_count := listings_count
            new_listings_count := created_today
            sold_rate_proxy := sold_rate_proxy
            premium_over_msrp := premium_over_msrp
            avail_ratio := avail_ratio
            avg_shipping_days := avg_shipping_days }

/-- The premium feature column of _score_rows: a null premium is substituted
with 0.0 before scaling. -/
def premList (rows : List ModelDayRaw) : List ℚ :=
  rows.map (fun r => r.premium_over_msrp.getD 0)

/-- The availability feature column of _score_rows. -/
def availList (rows : List ModelDayRaw) : List ℚ :=
  rows.map (fun r => r.avail_ratio)

/-- The velocity proxy of one row:
0.6 * sold_rate_proxy + 0.4 * (new_listings_count / listings_count if listings_count else 0.0). -/
def velOf (r : ModelDayRaw) : ℚ :=
  0.6 * r.sold_rate_proxy +
    0.4 * (if r.listings_count = 0 then 0 else (r.new_listings_count : ℚ) / (r.listings_count : ℚ))

/-- The velocity feature column of _score_rows. -/
def velList (rows : List ModelDayRaw) : List ℚ :=
  rows.map velOf

/-- The clamped full-precision composite index of each row, in batch order:
wait_time_index = w1 * premium_norm + w2 * (1 - availability_norm) + w3 * velocity_norm,
clamped to the unit interval. The source indexes the three normalized columns
by position; zipping the equal-length columns is the same access. -/
def waitIndexes (rows : List ModelDayRaw) (w1 w2 w3 : ℚ) : List ℚ :=
  let premium_norm := _normalize (premList rows)
  let avail_norm := _normalize (availList rows)
  let velocity_norm := _normalize (velList rows)
  (premium_norm.zip (avail_norm.zip velocity_norm)).map
    (fun t => clampUnit (w1 * t.1 + w2 * (1 - t.2.1) + w3 * t.2.2))

/-- One output dict of _score_rows: monetary fields rounded to 2 decimals,
ratio and index fields to 4; the band is computed from the unrounded index. -/
def mkScored (r : ModelDayRaw) (index : ℚ) : ScoredRow :=
  { model_id := r.model_id
    captured_date := r.captured_date
    median_price := pyRound r.median_price 2
    listings_count := r.listings_count
    new_listings_count := r.new_listings_count
    sold_rate_proxy := pyRound r.sold_rate_proxy 4
    premium_over_msrp := r.premium_over_msrp.map (fun p => pyRound p 4)
    wait_time_index := pyRound index 4
    wait_band := _wait_band index }

/-- _score_rows of wait_time.py. -/
def _score_rows (rows : List ModelDayRaw) (w1 w2 w3 : ℚ) : List ScoredRow :=
  (rows.zip (waitIndexes rows w1 w2 w3)).map (fun p => mkScored p.1 p.2)

/-- compute_model_daily_stats of wait_time.py, as a function of the fetched
source data (the models of the brand in id order, their listings, and the
snapshot rows of the target date). The per-model listing grouping by dict
setdefault preserves fetch order, which filtering by model id reproduces.
The default weights of _score_rows are 0.45, 0.30, 0.25. -/
def compute_model_daily_stats (models : List BrandModel) (listing_rows : List ListingRow)
    (snapshot_rows : List SnapshotRow) (captured_date : String) : List ScoredRow :=
  if models = [] then []
  else if listing_rows = [] then []
  else if snapshot_rows = [] then []
  else
    let raw_rows := models.filterMap (fun m =>
      _calc_model_raw m.id m.msrp (listing_rows.filter (fun l => l.model_id = m.id))
        snapshot_rows captured_date)
    _score_rows raw_rows 0.45 0.30 0.25

/-- The conflict key of the model_daily_stats upsert: (model_id, captured_date). -/
def statKey (r : ScoredRow) : ℤ × String := (r.model_id, r.captured_date)

/-- Modelled from the spec: one keyed write of the persistence upsert, which is
not under src (the upsert executes inside the external data store). The spec
states persistence is an upsert keyed by (item, date): a rerun for the same key
overwrites in place. A row whose key is present replaces the stored row in
place; a new key is appended. -/
def upsertOne (store : List ScoredRow) (r : ScoredRow) : List ScoredRow :=
  if store.any (fun s => statKey s = statKey r) then
    store.map (fun s => if statKey s = statKey r then r else s)
  else store ++ [r]

/-- Modelled from the spec: upsert_model_daily_stats persists the batch with an
upsert keyed by (model_id, captured_date), row by row. -/
def upsert_model_daily_stats (store : List ScoredRow) (rows : List ScoredRow) : List ScoredRow :=
  rows.foldl upsertOne store

/-- The stored row under a key: the first (and, for a keyed store, only) row
carrying the key. -/
def findKey (store : List ScoredRow) (k : ℤ × String) : Option ScoredRow :=
  store.find? (fun s => statKey s = k)

/-- The last row of a batch carrying a key, i.e. the write that wins. -/
def lastKey (rows : List ScoredRow) (k : ℤ × String) : Option ScoredRow :=
  rows.foldl (fun acc r => if statKey r = k then some r else acc) none

/-- How many stored rows carry a key. -/
def countKey (store : List ScoredRow) (k : ℤ × String) : ℕ :=
  store.countP (fun s => statKey s = k)

/-- Python dict assignment m[k] = v: overwrite in place when the key is
present, append when it is new. Key insertion order is preserved, as for
Python 3.7+ dicts. -/
def dictSet {K V : Type} [DecidableEq K] (m : List (K × V)) (k : K) (v : V) : List (K × V) :=
  if m.any (fun p => p.1 = k) then m.map (fun p => if p.1 = k then (k, v) else p)
  else m ++ [(k, v)]

/-- Python dict lookup m.get(k). -/
def dictGet? {K V : Type} [DecidableEq K] (m : List (K × V)) (k : K) : Option V :=
  (m.find? (fun p => p.1 = k)).map (fun p => p.2)

/-- One step of the dict-building pass of _check_price_anomalies: skip a null
price, route a prior-date row into the first dict, else a target-date row into
the second. -/
def priceRoute (prev_date curr_date : String) (acc : List (ℤ × ℚ) × List (ℤ × ℚ))
    (row : SnapshotRow) : List (ℤ × ℚ) × List (ℤ × ℚ) :=
  match row.price_value with
  | none => acc
  | some price =>
    if row.captured_date = prev_date then (dictSet acc.1 row.listing_id price, acc.2)
    else if row.captured_date = curr_date then (acc.1, dictSet acc.2 row.listing_id price)
    else acc

def buildPriceDicts (snaps : List SnapshotRow) (prev_date curr_date : String) :
    List (ℤ × ℚ) × List (ℤ × ℚ) :=
  snaps.foldl (priceRoute prev_date curr_date) ([], [])

/-- _check_price_anomalies of validate.py, as a function of the fetched
two-day snapshot rows: for each listing with a current price, skip it when the
prior price is absent or nonpositive, flag it when
pct_jump = abs((curr - prev) / prev) * 100 strictly exceeds the threshold;
report the flagged count and the top 10 flagged entries by pct_jump
descending. -/
def anomaliesOf (snaps : List SnapshotRow) (prev_date curr_date : String)
    (threshold_pct : ℚ) : List AnomalyEntry :=
  let dicts := buildPriceDicts snaps prev_date curr_date
  dicts.2.filterMap (fun pc =>
    match dictGet? dicts.1 pc.1 with
    | none => none
    | some prev =>
      if prev ≤ 0 then none
      else
        let pct_jump := |(pc.2 - prev) / prev| * 100
        if threshold_pct < pct_jump then
          some
            { listing_id := pc.1
              prev_price := pyRound prev 2
              curr_price := pyRound pc.2 2
              pct_jump := pyRound pct_jump 2 }
        else none)

def _check_price_anomalies (snaps : List SnapshotRow) (prev_date curr_date : String)
    (threshold_pct : ℚ) : ℕ × List AnomalyEntry :=
  let anomalies := anomaliesOf snaps prev_date curr_date threshold_pct
  let sorted_anoms := List.insertionSort (fun a b : AnomalyEntry => b.pct_jump ≤ a.pct_jump) anomalies
  (anomalies.length, sorted_anoms.take 10)

/-- One step of the URL tally of _check_duplicate_urls:
str(row.get("url") or "").strip() turns an absent URL into the empty string,
an empty trimmed URL is skipped, any other bumps its count. -/
def urlTally (m : List (String × ℕ)) (u : Option String) : List (String × ℕ) :=
  let s := pyStrip (u.getD "")
  if s = "" then m else dictSet m s ((dictGet? m s).getD 0 + 1)

/-- The seen dict of _check_duplicate_urls: count each trimmed nonempty URL. -/
def buildUrlCounts (urls : List (Option String)) : List (String × ℕ) :=
  urls.foldl urlTally []

/-- _check_duplicate_urls of validate.py, as a function of the fetched URL
column: a duplicate group is a trimmed nonempty URL occurring more than once;
report the group count and the top 10 groups by occurrence count descending. -/
def dupGroupsOf (urls : List (Option String)) : List DupEntry :=
  (buildUrlCounts urls).filterMap (fun p =>
    if 1 < p.2 then some ({ url := p.1, count := p.2 } : DupEntry) else none)

def _check_duplicate_urls (urls : List (Option String)) : ℕ × List DupEntry :=
  let duplicates := dupGroupsOf urls
  let sorted_dups := List.insertionSort (fun a b : DupEntry => b.count ≤ a.count) duplicates
  (duplicates.length, sorted_dups.take 10)

/-- The descending comparison used to sort anomaly examples is total. -/
instance instAnomalyDescTotal : IsTotal AnomalyEntry (fun a b => b.pct_jump ≤ a.pct_jump) :=
  ⟨fun a b => le_total b.pct_jump a.pct_jump⟩

/-- The descending comparison used to sort anomaly examples is transitive. -/
instance instAnomalyDescTrans : IsTrans AnomalyEntry (fun a b => b.pct_jump ≤ a.pct_jump) :=
  ⟨fun _ _ _ hab hbc => le_trans hbc hab⟩

/-- The descending comparison used to sort duplicate groups is total. -/
instance instDupDescTotal : IsTotal DupEntry (fun a b => b.count ≤ a.count) :=
  ⟨fun a b => le_total b.count a.count⟩

/-- The descending comparison used to sort duplicate groups is transitive. -/
instance instDupDescTrans : IsTrans DupEntry (fun a b => b.count ≤ a.count) :=
  ⟨fun _ _ _ hab hbc => le_trans hbc hab⟩

/-- The matched non-null prices of one model: prices of the snapshot rows
whose listing_id belongs to the listings of the model, as collected inside
_calc_model_raw. -/
def matchedPrices (listing_rows : List ListingRow) (snapshot_rows : List SnapshotRow) : List ℚ :=
  (snapshot_rows.filter (fun s => s.listing_id ∈ listing_rows.map (fun l => l.id))).filterMap
    (fun s => s.price_value)

/-- Stated from the spec wording, for comparison with the code: the premium
over the reference price is (median_price / reference_price) - 1 when the
reference price is present and strictly positive, else null. -/
def premiumSpec (msrp : Option ℚ) (median_price : ℚ) : Option ℚ :=
  match msrp with
  | some m => if 0 < m then some (median_price / m - 1) else none
  | none => none

/-- The textbook median read off an ascending-sorted list: middle element for
an odd length, mean of the two middle elements for an even length. -/
def medianOfSorted (s : List ℚ) : ℚ :=
  if s.length % 2 = 1 then s.getD (s.length / 2) 0
  else (s.getD (s.length / 2 - 1) 0 + s.getD (s.length / 2) 0) / 2

/-- One step of the priceOn fold. -/
def priceStep (d : String) (lid : ℤ) (acc : Option ℚ) (r : SnapshotRow) : Option ℚ :=
  if r.listing_id = lid ∧ r.captured_date = d ∧ r.price_value.isSome then r.price_value
  else acc

/-- The price of listing lid on date d: the price of the last snapshot row of
that listing and date carrying a non-null price (under the one-snapshot-per-
listing-per-day invariant, the price of its unique snapshot that day). -/
def priceOn (snaps : List SnapshotRow) (d : String) (lid : ℤ) : Option ℚ :=
  snaps.foldl (priceStep d lid) none

/-- Whether the anomaly check flags listing lid: it has a price on both dates,
the prior price is strictly positive, and the percentage jump strictly
exceeds the threshold. -/
def anomalyFlag (snaps : List SnapshotRow) (prev_date curr_date : String) (thr : ℚ)
    (lid : ℤ) : Bool :=
  match priceOn snaps curr_date lid, priceOn snaps prev_date lid with
  | some c, some p => decide (0 < p) && decide (thr < |(c - p) / p| * 100)
  | _, _ => false

/-- The anomaly entry reported for a flagged listing lid. -/
def mkEntryOf (snaps : List SnapshotRow) (prev_date curr_date : String) (lid : ℤ) :
    AnomalyEntry :=
  let p := (priceOn snaps prev_date lid).getD 0
  let c := (priceOn snaps curr_date lid).getD 0
  { listing_id := lid
    prev_price := pyRound p 2
    curr_price := pyRound c 2
    pct_jump := pyRound (|(c - p) / p| * 100) 2 }

/-- The listings having a priced snapshot on the target date, with repetition,
in row order. -/
def currLids (snaps : List SnapshotRow) (curr_date : String) : List ℤ :=
  snaps.filterMap
    (fun r => if r.captured_date = curr_date ∧ r.price_value.isSome then some r.listing_id
      else none)

/-- The trimmed nonempty URL texts, in row order, with repetition. -/
def trimmedUrls (urls : List (Option String)) : List String :=
  urls.filterMap (fun u =>
    let s := pyStrip (u.getD "")
    if s = "" then none else some s)

/-- The duplicate group reported for URL u. -/
def mkDupOf (urls : List (Option String)) (u : String) : DupEntry :=
  { url := u, count := (trimmedUrls urls).count u }

/-! ### Concrete raw records used as inputs of witnesses and counterexamples.
Field order: model_id, captured_date, msrp, median_price, listings_count,
new_listings_count, sold_rate_proxy, premium_over_msrp, avail_ratio,
avg_shipping_days. Each satisfies the aggregator invariants
sold_rate_proxy = 1 - avail_ratio and avail_ratio = available / listings_count. -/

/-- A single-record batch for the degenerate-batch claim. -/
def c1row : ModelDayRaw := ⟨1, "d", some 100, 120, 1, 0, 1/2, some (1/5), 1/2, 7⟩

/-- The one scored output of the batch [c1row]. -/
def c1scored : ScoredRow := ⟨1, "d", 120, 1, 0, 1/2, some (1/5), 3/10, "6-18 months"⟩

/-- Monotonicity counterexample, record A: premium 1/10, availability 1/2,
velocity proxy 0.6 * (1/2) = 3/10. -/
def c2rowA : ModelDayRaw := ⟨1, "d", some 1, 1, 2, 0, 1/2, some (1/10), 1/2, 7⟩

/-- Monotonicity counterexample, record B: premium 0, availability 2/3,
velocity proxy 0.6 * (1/3) + 0.4 * (3/3) = 3/5. -/
def c2rowB : ModelDayRaw := ⟨2, "d", some 1, 1, 3, 3, 1/3, some 0, 2/3, 7⟩

/-- Monotonicity counterexample, record C, stretching the premium and
availability ranges: premium 1, availability 0, velocity proxy 3/5. -/
def c2rowC : ModelDayRaw := ⟨3, "d", some 1, 1, 1, 0, 1, some 1, 0, 7⟩

/-- Two-record witness batch, record X: premium 1, availability 0, velocity 3/5. -/
def c2wX : ModelDayRaw := ⟨1, "d", some 1, 1, 1, 0, 1, some 1, 0, 7⟩

/-- Two-record witness batch, record Y: premium 0, availability 1, velocity 0. -/
def c2wY : ModelDayRaw := ⟨2, "d", some 1, 1, 1, 0, 0, some 0, 1, 7⟩

/-- Band-versus-rounding record A: its full-precision index is
0.45 * (8333/15000) = 24999/100000 = 0.24999, just below the 0.25 threshold. -/
def c10rowA : ModelDayRaw := ⟨1, "d", some 1, 1, 1, 0, 0, some (8333/15000), 1, 7⟩

/-- Band-versus-rounding record B, stretching the feature ranges. -/
def c10rowB : ModelDayRaw := ⟨2, "d", some 1, 1, 1, 0, 1, some 0, 0, 7⟩

/-- Band-versus-rounding record C, keeping the premium range at [0, 1]. -/
def c10rowC : ModelDayRaw := ⟨3, "d", some 1, 1, 2, 0, 1/2, some 1, 1/2, 7⟩

/-- Two listings with snapshots on the prior date "p" and the target date "c":
listing 1 moves 100 to 130 (a 30 percent jump), listing 2 moves 100 to 120
(a 20 percent jump). -/
def c6snaps : List SnapshotRow :=
  [⟨1, "p", some 100, none, none, none⟩, ⟨1, "c", some 130, none, none, none⟩,
   ⟨2, "p", some 100, none, none, none⟩, ⟨2, "c", some 120, none, none, none⟩]

/-! ### Helper lemmas about pyListMin, pyListMax and _normalize -/

theorem foldl_min_le_init (xs : List ℚ) (a : ℚ) : xs.foldl min a ≤ a := by
  induction xs generalizing a with
  | nil => exact le_refl a
  | cons x xs ih => exact le_trans (ih (min a x)) (min_le_left a x)

theorem foldl_min_le_mem (xs : List ℚ) (a x : ℚ) (hx : x ∈ xs) : xs.foldl min a ≤ x := by
  induction xs generalizing a with
  | nil => cases hx
  | cons y ys ih =>
    rcases List.mem_cons.mp hx with h | h
    · subst h
      exact le_trans (foldl_min_le_init ys (min a x)) (min_le_right a x)
    · exact ih (min a y) h

theorem pyListMin_le_mem (l : List ℚ) (x : ℚ) (hx : x ∈ l) : pyListMin l ≤ x := by
  cases l with
  | nil => cases hx
  | cons y ys =>
    rcases List.mem_cons.mp hx with h | h
    · subst h
      exact foldl_min_le_init ys x
    · exact foldl_min_le_mem ys y x h

theorem init_le_foldl_max (xs : List ℚ) (a : ℚ) : a ≤ xs.foldl max a := by
  induction xs generalizing a with
  | nil => exact le_refl a
  | cons x xs ih => exact le_trans (le_max_left a x) (ih (max a x))

theorem mem_le_foldl_max (xs : List ℚ) (a x : ℚ) (hx : x ∈ xs) : x ≤ xs.foldl max a := by
  induction xs generalizing a with
  | nil => cases hx
  | cons y ys ih =>
    rcases List.mem_cons.mp hx with h | h
    · subst h
      exact le_trans (le_max_right a x) (init_le_foldl_max ys (max a x))
    · exact ih (max a y) h

theorem mem_le_pyListMax (l : List ℚ) (x : ℚ) (hx : x ∈ l) : x ≤ pyListMax l := by
  cases l with
  | nil => cases hx
  | cons y ys =>
    rcases List.mem_cons.mp hx with h | h
    · subst h
      exact init_le_foldl_max ys x
    · exact mem_le_foldl_max ys y x h

theorem pyListMin_mem (l : List ℚ) (hne : l ≠ []) : pyListMin l ∈ l := by
  cases l with
  | nil => exact absurd rfl hne
  | cons x xs =>
    show xs.foldl min x ∈ x :: xs
    clear hne
    induction xs generalizing x with
    | nil => exact List.mem_singleton.mpr rfl
    | cons y ys ih =>
      rcases List.mem_cons.mp (ih (min x y)) with h | h
      · rcases min_choice x y with hm | hm
        · exact List.mem_cons.mpr (Or.inl (h.trans hm))
        · exact List.mem_cons.mpr (Or.inr (List.mem_cons.mpr (Or.inl (h.trans hm))))
      · exact List.mem_cons.mpr (Or.inr (List.mem_cons.mpr (Or.inr h)))

theorem pyListMax_mem (l : List ℚ) (hne : l ≠ []) : pyListMax l ∈ l := by
  cases l with
  | nil => exact absurd rfl hne
  | cons x xs =>
    show xs.foldl max x ∈ x :: xs
    clear hne
    induction xs generalizing x with
    | nil => exact List.mem_singleton.mpr rfl
    | cons y ys ih =>
      rcases List.mem_cons.mp (ih (max x y)) with h | h
      · rcases max_choice x y with hm | hm
        · exact List.mem_cons.mpr (Or.inl (h.trans hm))
        · exact List.mem_cons.mpr (Or.inr (List.mem_cons.mpr (Or.inl (h.trans hm))))
      · exact List.mem_cons.mpr (Or.inr (List.mem_cons.mpr (Or.inr h)))

theorem length_normalize (l : List ℚ) : (_normalize l).length = l.length := by
  unfold _normalize
  split
  · rename_i h
    simp [h]
  · dsimp only
    split <;> simp

theorem getD_normalize (l : List ℚ) (i : ℕ) (h : i < l.length) :
    (_normalize l).getD i 0 =
      if pyListMax l = pyListMin l then 0
      else (l.getD i 0 - pyListMin l) / (pyListMax l - pyListMin l) := by
  have hne : l ≠ [] := by
    intro hnil
    rw [hnil] at h
    simp at h
  unfold _normalize
  rw [if_neg hne]
  dsimp only
  split
  · have hlen : i < (l.map (fun _ => (0 : ℚ))).length := by simpa using h
    rw [List.getD_eq_getElem _ _ hlen, List.getElem_map]
  · have hlen : i < (l.map (fun v => (v - pyListMin l) / (pyListMax l - pyListMin l))).length := by
      simpa using h
    rw [List.getD_eq_getElem _ _ hlen, List.getElem_map, List.getD_eq_getElem _ _ h]

theorem getD_mem (l : List ℚ) (i : ℕ) (h : i < l.length) : l.getD i 0 ∈ l := by
  rw [List.getD_eq_getElem _ _ h]
  exact List.getElem_mem h

theorem pyListMin_lt_pyListMax (l : List ℚ) (hne : l ≠ [])
    (hc : pyListMax l ≠ pyListMin l) : pyListMin l < pyListMax l := by
  rcases List.exists_mem_of_ne_nil l hne with ⟨x, hx⟩
  rcases lt_or_eq_of_le (le_trans (pyListMin_le_mem l x hx) (mem_le_pyListMax l x hx)) with h | h
  · exact h
  · exact absurd h.symm hc

theorem normalize_nonneg (l : List ℚ) (i : ℕ) (h : i < l.length) :
    0 ≤ (_normalize l).getD i 0 := by
  rw [getD_normalize l i h]
  split
  · exact le_refl 0
  · rename_i hc
    have hne : l ≠ [] := by
      intro hnil
      rw [hnil] at h
      simp at h
    have hlt := pyListMin_lt_pyListMax l hne hc
    exact div_nonneg (sub_nonneg.mpr (pyListMin_le_mem l _ (getD_mem l i h))) (by linarith)

theorem normalize_le_one (l : List ℚ) (i : ℕ) (h : i < l.length) :
    (_normalize l).getD i 0 ≤ 1 := by
  rw [getD_normalize l i h]
  split
  · exact zero_le_one
  · rename_i hc
    have hne : l ≠ [] := by
      intro hnil
      rw [hnil] at h
      simp at h
    have hlt := pyListMin_lt_pyListMax l hne hc
    rw [div_le_one (by linarith)]
    have := mem_le_pyListMax l _ (getD_mem l i h)
    linarith

theorem normalize_strict_lt (l : List ℚ) (i j : ℕ) (hi : i < l.length) (hj : j < l.length)
    (hlt : l.getD j 0 < l.getD i 0) :
    (_normalize l).getD j 0 < (_normalize l).getD i 0 := by
  have hne : l ≠ [] := by
    intro hnil
    rw [hnil] at hi
    simp at hi
  rw [getD_normalize l i hi, getD_normalize l j hj]
  split
  · rename_i hc
    exfalso
    have h1 := mem_le_pyListMax l _ (getD_mem l i hi)
    have h2 := pyListMin_le_mem l _ (getD_mem l j hj)
    rw [hc] at h1
    linarith
  · rename_i hc
    have hd := pyListMin_lt_pyListMax l hne hc
    rw [div_lt_div_iff₀ (by linarith) (by linarith)]
    nlinarith

theorem normalize_mono_le (l : List ℚ) (i j : ℕ) (hi : i < l.length) (hj : j < l.length)
    (hle : l.getD j 0 ≤ l.getD i 0) :
    (_normalize l).getD j 0 ≤ (_normalize l).getD i 0 := by
  rw [getD_normalize l i hi, getD_normalize l j hj]
  split
  · exact le_refl 0
  · rename_i hc
    have hne : l ≠ [] := by
      intro hnil
      rw [hnil] at hi
      simp at hi
    have hd := pyListMin_lt_pyListMax l hne hc
    rw [div_le_div_iff₀ (by linarith) (by linarith)]
    nlinarith

theorem normalize_const (l : List ℚ) (hconst : ∀ x ∈ l, ∀ y ∈ l, x = y) :
    _normalize l = List.replicate l.length 0 := by
  unfold _normalize
  split
  · rename_i h
    simp [h]
  · rename_i hne
    have hmax : pyListMax l = pyListMin l :=
      hconst _ (pyListMax_mem l hne) _ (pyListMin_mem l hne)
    dsimp only
    rw [if_pos hmax]
    simp [List.map_const']

/-! ### Helper lemmas about the scorer -/

theorem length_premList (rows : List ModelDayRaw) : (premList rows).length = rows.length := by
  simp [premList]

theorem length_availList (rows : List ModelDayRaw) : (availList rows).length = rows.length := by
  simp [availList]

theorem length_velList (rows : List ModelDayRaw) : (velList rows).length = rows.length := by
  simp [velList]

theorem getD_premList (rows : List ModelDayRaw) (i : ℕ) (h : i < rows.length) :
    (premList rows).getD i 0 = (rows.getD i default).premium_over_msrp.getD 0 := by
  have hlen : i < (premList rows).length := by rw [length_premList]; exact h
  rw [List.getD_eq_getElem _ _ hlen, List.getD_eq_getElem _ _ h]
  simp [premList]

theorem getD_availList (rows : List ModelDayRaw) (i : ℕ) (h : i < rows.length) :
    (availList rows).getD i 0 = (rows.getD i default).avail_ratio := by
  have hlen : i < (availList rows).length := by rw [length_availList]; exact h
  rw [List.getD_eq_getElem _ _ hlen, List.getD_eq_getElem _ _ h]
  simp [availList]

theorem getD_velList (rows : List ModelDayRaw) (i : ℕ) (h : i < rows.length) :
    (velList rows).getD i 0 = velOf (rows.getD i default) := by
  have hlen : i < (velList rows).length := by rw [length_velList]; exact h
  rw [List.getD_eq_getElem _ _ hlen, List.getD_eq_getElem _ _ h]
  simp [velList]

theorem length_waitIndexes (rows : List ModelDayRaw) (w1 w2 w3 : ℚ) :
    (waitIndexes rows w1 w2 w3).length = rows.length := by
  simp [waitIndexes, length_normalize, length_premList, length_availList, length_velList]

theorem getD_waitIndexes (rows : List ModelDayRaw) (w1 w2 w3 : ℚ) (i : ℕ)
    (h : i < rows.length) :
    (waitIndexes rows w1 w2 w3).getD i 0 =
      clampUnit (w1 * (_normalize (premList rows)).getD i 0 +
        w2 * (1 - (_normalize (availList rows)).getD i 0) +
        w3 * (_normalize (velList rows)).getD i 0) := by
  have hp : i < (_normalize (premList rows)).length := by
    rw [length_normalize, length_premList]; exact h
  have ha : i < (_normalize (availList rows)).length := by
    rw [length_normalize, length_availList]; exact h
  have hv : i < (_normalize (velList rows)).length := by
    rw [length_normalize, length_velList]; exact h
  have hlen : i < (waitIndexes rows w1 w2 w3).length := by
    rw [length_waitIndexes]; exact h
  unfold waitIndexes at hlen ⊢
  rw [List.getD_eq_getElem _ _ hlen]
  rw [List.getElem_map, List.getElem_zip, List.getElem_zip]
  rw [List.getD_eq_getElem _ _ hp, List.getD_eq_getElem _ _ ha, List.getD_eq_getElem _ _ hv]

theorem clampUnit_of_bounds (q : ℚ) (h0 : 0 ≤ q) (h1 : q ≤ 1) : clampUnit q = q := by
  unfold clampUnit
  rw [min_eq_right h1, max_eq_right h0]

/-- Every scored output is the record of the row at its position, built from
the clamped index at that position. -/
theorem mem_score_rows (rows : List ModelDayRaw) (w1 w2 w3 : ℚ) (out : ScoredRow)
    (hmem : out ∈ _score_rows rows w1 w2 w3) :
    ∃ i, i < rows.length ∧
      out = mkScored (rows.getD i default) ((waitIndexes rows w1 w2 w3).getD i 0) := by
  unfold _score_rows at hmem
  rcases List.mem_map.mp hmem with ⟨p, hp, hout⟩
  rcases List.mem_iff_getElem.mp hp with ⟨i, hi, hgp⟩
  have hiz : i < rows.length := by
    have := hi
    rw [List.length_zip, length_waitIndexes] at this
    omega
  have hiw : i < (waitIndexes rows w1 w2 w3).length := by
    rw [length_waitIndexes]; exact hiz
  refine ⟨i, hiz, ?_⟩
  rw [← hout, ← hgp, List.getElem_zip]
  rw [List.getD_eq_getElem _ _ hiz, List.getD_eq_getElem _ _ hiw]

/-! ### Claim C3: the band function -/

/-- Claim C3: for every index value, _wait_band returns exactly one of five
ordinal bands by strict less-than comparison against 0.25, 0.45, 0.65, 0.85 in
ascending order; an index exactly equal to a threshold falls into the band
above it, never the band below. -/
theorem claim_C3 (index : ℚ) :
    (index < 0.25 → _wait_band index = "0-6 months") ∧
    (0.25 ≤ index → index < 0.45 → _wait_band index = "6-18 months") ∧
    (0.45 ≤ index → index < 0.65 → _wait_band index = "18 months-3 years") ∧
    (0.65 ≤ index → index < 0.85 → _wait_band index = "3-5 years") ∧
    (0.85 ≤ index → _wait_band index = "5-8+ years") ∧
    _wait_band 0.25 = "6-18 months" ∧ _wait_band 0.45 = "18 months-3 years" ∧
    _wait_band 0.65 = "3-5 years" ∧ _wait_band 0.85 = "5-8+ years" := by
  refine ⟨?_, ?_, ?_, ?_, ?_, ?_, ?_, ?_, ?_⟩
  · intro h
    unfold _wait_band
    rw [if_pos h]
  · intro h1 h2
    unfold _wait_band
    rw [if_neg (by linarith), if_pos h2]
  · intro h1 h2
    unfold _wait_band
    rw [if_neg (by linarith), if_neg (by linarith), if_pos h2]
  · intro h1 h2
    unfold _wait_band
    rw [if_neg (by linarith), if_neg (by linarith), if_neg (by linarith), if_pos h2]
  · intro h1
    unfold _wait_band
    rw [if_neg (by linarith), if_neg (by linarith), if_neg (by linarith), if_neg (by linarith)]
  · unfold _wait_band
    norm_num
  · unfold _wait_band
    norm_num
  · unfold _wait_band
    norm_num
  · unfold _wait_band
    norm_num

/-- Witness for claim C3 at the concrete index 0.25, discharging the
hypotheses of the second implication. -/
theorem claim_C3_witness : _wait_band 0.25 = "6-18 months" :=
  (claim_C3 0.25).2.1 (by norm_num) (by norm_num)

/-! ### Claim C8: totality and range of the normalizer -/

/-- Claim C8: _normalize is total: it returns one output per input in order;
when max = min every output is 0.0 (no division occurs on that branch), and
otherwise each output equals (value - min) / (max - min) and lies in [0, 1]. -/
theorem claim_C8 (values : List ℚ) :
    (_normalize values).length = values.length ∧
    ∀ i, i < values.length →
      (pyListMax values = pyListMin values → (_normalize values).getD i 0 = 0) ∧
      (pyListMax values ≠ pyListMin values →
        (_normalize values).getD i 0 =
          (values.getD i 0 - pyListMin values) / (pyListMax values - pyListMin values)) ∧
      0 ≤ (_normalize values).getD i 0 ∧ (_normalize values).getD i 0 ≤ 1 := by
  refine ⟨length_normalize values, fun i h => ⟨?_, ?_, normalize_nonneg values i h,
    normalize_le_one values i h⟩⟩
  · intro hc
    rw [getD_normalize values i h, if_pos hc]
  · intro hc
    rw [getD_normalize values i h, if_neg hc]

/-- Witness for claim C8 on the batch [1, 3]: two outputs, the second equal to
(3 - 1) / (3 - 1) = 1, the first nonnegative. -/
theorem claim_C8_witness :
    (_normalize [(1 : ℚ), 3]).length = 2 ∧ (_normalize [(1 : ℚ), 3]).getD 1 0 = 1 ∧
      0 ≤ (_normalize [(1 : ℚ), 3]).getD 0 0 := by
  have h := claim_C8 [(1 : ℚ), 3]
  refine ⟨by simpa using h.1, ?_, (h.2 0 (by norm_num)).2.2.1⟩
  have h2 := (h.2 1 (by norm_num)).2.1 (by norm_num [pyListMax, pyListMin])
  rw [h2]
  norm_num [pyListMax, pyListMin]

/-! ### Claim C1: degenerate batches -/

theorem normalize_singleton (x : ℚ) : _normalize [x] = [0] := by
  simp [_normalize, pyListMin, pyListMax]

/-- Evaluation of _normalize on an explicit three-element batch with known
distinct extrema. -/
theorem normalize_eval3 (a b c m M : ℚ) (hm : pyListMin [a, b, c] = m)
    (hM : pyListMax [a, b, c] = M) (hne : M ≠ m) :
    _normalize [a, b, c] = [(a - m) / (M - m), (b - m) / (M - m), (c - m) / (M - m)] := by
  unfold _normalize
  rw [if_neg (List.cons_ne_nil _ _)]
  dsimp only
  rw [hm, hM, if_neg hne]
  simp

/-- In the batch [c1row], the one scored output is c1scored: every feature
normalizes to 0, so the index is 0.45 * 0 + 0.30 * (1 - 0) + 0.25 * 0 = 0.3
and the band is the second one. -/
theorem score_rows_c1row_eval : _score_rows [c1row] 0.45 0.30 0.25 = [c1scored] := by
  have hp : premList [c1row] = [1/5] := by simp [premList, c1row]
  have ha : availList [c1row] = [1/2] := by simp [availList, c1row]
  have hv : velList [c1row] = [3/10] := by
    simp [velList, velOf, c1row]
    norm_num
  have hw : waitIndexes [c1row] 0.45 0.30 0.25 = [3/10] := by
    unfold waitIndexes
    rw [hp, ha, hv, normalize_singleton, normalize_singleton, normalize_singleton]
    simp [clampUnit, min_def, max_def]
    norm_num
  unfold _score_rows
  rw [hw]
  have hmk : mkScored c1row (3/10) = c1scored := by
    unfold mkScored c1row c1scored
    norm_num [pyRound, round_eq, _wait_band]
  simp [hmk]

/-- Counterexample to claim C1 as stated: on the single-record batch [c1row]
the scored record does not have wait_time_index 0.0 and the shortest band. -/
theorem claim_C1_counterexample :
    ¬ ∀ out ∈ _score_rows [c1row] 0.45 0.30 0.25,
      out.wait_time_index = 0 ∧ out.wait_band = "0-6 months" := by
  intro h
  have hm : c1scored ∈ _score_rows [c1row] 0.45 0.30 0.25 := by
    rw [score_rows_c1row_eval]
    exact List.mem_singleton.mpr rfl
  have := (h c1scored hm).1
  norm_num [c1scored] at this

/-- Claim C1 (amended): a degenerate batch (single record, or all records
sharing identical values for each of the three features) normalizes every
feature of every record to 0.0, and every scored record then carries
wait_time_index 0.3 (the weight of the inverted availability term, not 0.0)
and wait_band "6-18 months" (not the shortest band). -/
theorem claim_C1 (rows : List ModelDayRaw) (hne : rows ≠ [])
    (hdeg : rows.length = 1 ∨
      ((∀ x ∈ premList rows, ∀ y ∈ premList rows, x = y) ∧
       (∀ x ∈ availList rows, ∀ y ∈ availList rows, x = y) ∧
       (∀ x ∈ velList rows, ∀ y ∈ velList rows, x = y))) :
    _normalize (premList rows) = List.replicate rows.length 0 ∧
    _normalize (availList rows) = List.replicate rows.length 0 ∧
    _normalize (velList rows) = List.replicate rows.length 0 ∧
    ∀ out ∈ _score_rows rows 0.45 0.30 0.25,
      out.wait_time_index = 0.3 ∧ out.wait_band = "6-18 months" := by
  have hconst : (∀ x ∈ premList rows, ∀ y ∈ premList rows, x = y) ∧
      (∀ x ∈ availList rows, ∀ y ∈ availList rows, x = y) ∧
      (∀ x ∈ velList rows, ∀ y ∈ velList rows, x = y) := by
    rcases hdeg with h1 | h2
    · rcases List.length_eq_one.mp h1 with ⟨r, hr⟩
      subst hr
      refine ⟨?_, ?_, ?_⟩ <;>
        · intro x hx y hy
          simp only [premList, availList, velList, List.map_cons, List.map_nil,
            List.mem_singleton] at hx hy
          rw [hx, hy]
    · exact h2
  have hmaxp : pyListMax (premList rows) = pyListMin (premList rows) := by
    have hnep : premList rows ≠ [] := by
      intro hc
      exact hne (by simpa [premList] using congrArg List.length hc)
    exact hconst.1 _ (pyListMax_mem _ hnep) _ (pyListMin_mem _ hnep)
  have hmaxa : pyListMax (availList rows) = pyListMin (availList rows) := by
    have hnea : availList rows ≠ [] := by
      intro hc
      exact hne (by simpa [availList] using congrArg List.length hc)
    exact hconst.2.1 _ (pyListMax_mem _ hnea) _ (pyListMin_mem _ hnea)
  have hmaxv : pyListMax (velList rows) = pyListMin (velList rows) := by
    have hnev : velList rows ≠ [] := by
      intro hc
      exact hne (by simpa [velList] using congrArg List.length hc)
    exact hconst.2.2 _ (pyListMax_mem _ hnev) _ (pyListMin_mem _ hnev)
  have hrepl : ∀ l : List ℚ, (∀ x ∈ l, ∀ y ∈ l, x = y) → _normalize l = List.replicate l.length 0 :=
    fun l hc => normalize_const l hc
  refine ⟨?_, ?_, ?_, ?_⟩
  · rw [hrepl _ hconst.1, length_premList]
  · rw [hrepl _ hconst.2.1, length_availList]
  · rw [hrepl _ hconst.2.2, length_velList]
  · intro out hout
    rcases mem_score_rows rows 0.45 0.30 0.25 out hout with ⟨i, hi, hout_eq⟩
    have hp0 : (_normalize (premList rows)).getD i 0 = 0 := by
      rw [getD_normalize _ i (by rw [length_premList]; exact hi), if_pos hmaxp]
    have ha0 : (_normalize (availList rows)).getD i 0 = 0 := by
      rw [getD_normalize _ i (by rw [length_availList]; exact hi), if_pos hmaxa]
    have hv0 : (_normalize (velList rows)).getD i 0 = 0 := by
      rw [getD_normalize _ i (by rw [length_velList]; exact hi), if_pos hmaxv]
    have hidx : (waitIndexes rows 0.45 0.30 0.25).getD i 0 = 0.3 := by
      rw [getD_waitIndexes rows 0.45 0.30 0.25 i hi, hp0, ha0, hv0]
      norm_num [clampUnit]
    rw [hout_eq, hidx]
    constructor
    · show pyRound 0.3 4 = 0.3
      norm_num [pyRound, round_eq]
    · show _wait_band 0.3 = "6-18 months"
      norm_num [_wait_band]

/-- Witness for claim C1 on the single-record batch [c1row]. -/
theorem claim_C1_witness :
    _normalize (premList [c1row]) = List.replicate 1 0 ∧
    c1scored.wait_time_index = 0.3 ∧ c1scored.wait_band = "6-18 months" := by
  have h := claim_C1 [c1row] (by simp) (Or.inl rfl)
  have hm : c1scored ∈ _score_rows [c1row] 0.45 0.30 0.25 := by
    rw [score_rows_c1row_eval]
    exact List.mem_singleton.mpr rfl
  exact ⟨h.1, h.2.2.2 c1scored hm⟩

/-! ### Claim C2: batch monotonicity of the index -/

/-- Counterexample to claim C2 as stated: in the batch [c2rowA, c2rowB, c2rowC],
record A has strictly higher premium and strictly lower availability_ratio
than record B, yet its wait_time_index is strictly smaller (0.12 versus 0.25):
the velocity proxy term overturns the premium and availability advantages. -/
theorem claim_C2_counterexample :
    c2rowB.premium_over_msrp.getD 0 < c2rowA.premium_over_msrp.getD 0 ∧
    c2rowA.avail_ratio < c2rowB.avail_ratio ∧
    ((_score_rows [c2rowA, c2rowB, c2rowC] 0.45 0.30 0.25).getD 0 default).wait_time_index <
      ((_score_rows [c2rowA, c2rowB, c2rowC] 0.45 0.30 0.25).getD 1 default).wait_time_index := by
  refine ⟨by norm_num [c2rowA, c2rowB], by norm_num [c2rowA, c2rowB], ?_⟩
  have hp : premList [c2rowA, c2rowB, c2rowC] = [1/10, 0, 1] := by
    simp [premList, c2rowA, c2rowB, c2rowC]
  have ha : availList [c2rowA, c2rowB, c2rowC] = [1/2, 2/3, 0] := by
    simp [availList, c2rowA, c2rowB, c2rowC]
  have hv : velList [c2rowA, c2rowB, c2rowC] = [3/10, 3/5, 3/5] := by
    simp [velList, velOf, c2rowA, c2rowB, c2rowC]
    norm_num
  have hpn : _normalize [(1 : ℚ)/10, 0, 1] = [1/10, 0, 1] := by
    rw [normalize_eval3 _ _ _ 0 1 (by norm_num [pyListMin, min_def])
      (by norm_num [pyListMax, max_def]) (by norm_num)]
    norm_num
  have han : _normalize [(1 : ℚ)/2, 2/3, 0] = [3/4, 1, 0] := by
    rw [normalize_eval3 _ _ _ 0 (2/3) (by norm_num [pyListMin, min_def])
      (by norm_num [pyListMax, max_def]) (by norm_num)]
    norm_num
  have hvn : _normalize [(3 : ℚ)/10, 3/5, 3/5] = [0, 1, 1] := by
    rw [normalize_eval3 _ _ _ (3/10) (3/5) (by norm_num [pyListMin, min_def])
      (by norm_num [pyListMax, max_def]) (by norm_num)]
    norm_num
  have hw : waitIndexes [c2rowA, c2rowB, c2rowC] 0.45 0.30 0.25 = [3/25, 1/4, 1] := by
    unfold waitIndexes
    rw [hp, ha, hv, hpn, han, hvn]
    norm_num [clampUnit, min_def, max_def]
  unfold _score_rows
  rw [hw]
  norm_num [mkScored, pyRound, round_eq]

/-- Claim C2 (amended): within one batch, if record i has strictly higher
premium, strictly lower availability_ratio, and a velocity proxy at least as
large as record j, then the full-precision wait_time_index of i is strictly
greater than that of j. (As stated the claim is false: with three or more
records a sufficiently larger velocity proxy on the lower-premium record can
overturn the comparison, as the counterexample shows.) -/
theorem claim_C2 (rows : List ModelDayRaw) (i j : ℕ) (hi : i < rows.length)
    (hj : j < rows.length)
    (hprem : (rows.getD j default).premium_over_msrp.getD 0 <
      (rows.getD i default).premium_over_msrp.getD 0)
    (havail : (rows.getD i default).avail_ratio < (rows.getD j default).avail_ratio)
    (hvel : velOf (rows.getD j default) ≤ velOf (rows.getD i default)) :
    (waitIndexes rows 0.45 0.30 0.25).getD j 0 < (waitIndexes rows 0.45 0.30 0.25).getD i 0 := by
  have hpi : i < (premList rows).length := by rw [length_premList]; exact hi
  have hpj : j < (premList rows).length := by rw [length_premList]; exact hj
  have hai : i < (availList rows).length := by rw [length_availList]; exact hi
  have haj : j < (availList rows).length := by rw [length_availList]; exact hj
  have hvi : i < (velList rows).length := by rw [length_velList]; exact hi
  have hvj : j < (velList rows).length := by rw [length_velList]; exact hj
  have hpn : (_normalize (premList rows)).getD j 0 < (_normalize (premList rows)).getD i 0 := by
    refine normalize_strict_lt _ i j hpi hpj ?_
    rw [getD_premList rows i hi, getD_premList rows j hj]
    exact hprem
  have han : (_normalize (availList rows)).getD i 0 < (_normalize (availList rows)).getD j 0 := by
    refine normalize_strict_lt _ j i haj hai ?_
    rw [getD_availList rows i hi, getD_availList rows j hj]
    exact havail
  have hvn : (_normalize (velList rows)).getD j 0 ≤ (_normalize (velList rows)).getD i 0 := by
    refine normalize_mono_le _ i j hvi hvj ?_
    rw [getD_velList rows i hi, getD_velList rows j hj]
    exact hvel
  have hb1 := normalize_nonneg (premList rows) i hpi
  have hb2 := normalize_le_one (premList rows) i hpi
  have hb3 := normalize_nonneg (premList rows) j hpj
  have hb4 := normalize_le_one (premList rows) j hpj
  have hb5 := normalize_nonneg (availList rows) i hai
  have hb6 := normalize_le_one (availList rows) i hai
  have hb7 := normalize_nonneg (availList rows) j haj
  have hb8 := normalize_le_one (availList rows) j haj
  have hb9 := normalize_nonneg (velList rows) i hvi
  have hb10 := normalize_le_one (velList rows) i hvi
  have hb11 := normalize_nonneg (velList rows) j hvj
  have hb12 := normalize_le_one (velList rows) j hvj
  rw [getD_waitIndexes rows 0.45 0.30 0.25 i hi, getD_waitIndexes rows 0.45 0.30 0.25 j hj]
  set pni := (_normalize (premList rows)).getD i 0
  set pnj := (_normalize (premList rows)).getD j 0
  set ani := (_normalize (availList rows)).getD i 0
  set anj := (_normalize (availList rows)).getD j 0
  set vni := (_normalize (velList rows)).getD i 0
  set vnj := (_normalize (velList rows)).getD j 0
  have hQP : 0.45 * pnj + 0.30 * (1 - anj) + 0.25 * vnj <
      0.45 * pni + 0.30 * (1 - ani) + 0.25 * vni := by linarith
  have hQ0 : (0 : ℚ) ≤ 0.45 * pnj + 0.30 * (1 - anj) + 0.25 * vnj := by linarith
  have hP1 : 0.45 * pni + 0.30 * (1 - ani) + 0.25 * vni ≤ 1 := by linarith
  rw [clampUnit_of_bounds _ hQ0 (le_trans (le_of_lt hQP) hP1),
    clampUnit_of_bounds _ (le_trans hQ0 (le_of_lt hQP)) hP1]
  exact hQP

/-- Witness for claim C2 on the two-record batch [c2wX, c2wY]: record X has
higher premium, lower availability and no smaller velocity than record Y, and
its full-precision index is strictly greater. -/
theorem claim_C2_witness :
    (waitIndexes [c2wX, c2wY] 0.45 0.30 0.25).getD 1 0 <
      (waitIndexes [c2wX, c2wY] 0.45 0.30 0.25).getD 0 0 := by
  refine claim_C2 [c2wX, c2wY] 0 1 (by norm_num) (by norm_num) ?_ ?_ ?_
  · norm_num [c2wX, c2wY]
  · norm_num [c2wX, c2wY]
  · norm_num [c2wX, c2wY, velOf]

/-! ### Claim C10: the persisted band versus the persisted rounded index -/

/-- Claim C10: the persisted wait_band is computed from the full-precision
index before rounding, so a batch exists whose stored band disagrees with the
band derived from the stored 4-decimal index: record A scores 0.24999, which
is banded "0-6 months" but stored as 0.25, and 0.25 is banded "6-18 months". -/
theorem claim_C10 :
    ∃ out ∈ _score_rows [c10rowA, c10rowB, c10rowC] 0.45 0.30 0.25,
      _wait_band out.wait_time_index ≠ out.wait_band := by
  have hp : premList [c10rowA, c10rowB, c10rowC] = [8333/15000, 0, 1] := by
    simp [premList, c10rowA, c10rowB, c10rowC]
  have ha : availList [c10rowA, c10rowB, c10rowC] = [1, 0, 1/2] := by
    simp [availList, c10rowA, c10rowB, c10rowC]
  have hv : velList [c10rowA, c10rowB, c10rowC] = [0, 3/5, 3/10] := by
    simp [velList, velOf, c10rowA, c10rowB, c10rowC]
    norm_num
  have hpn : _normalize [(8333 : ℚ)/15000, 0, 1] = [8333/15000, 0, 1] := by
    rw [normalize_eval3 _ _ _ 0 1 (by norm_num [pyListMin, min_def])
      (by norm_num [pyListMax, max_def]) (by norm_num)]
    norm_num
  have han : _normalize [(1 : ℚ), 0, 1/2] = [1, 0, 1/2] := by
    rw [normalize_eval3 _ _ _ 0 1 (by norm_num [pyListMin, min_def])
      (by norm_num [pyListMax, max_def]) (by norm_num)]
    norm_num
  have hvn : _normalize [(0 : ℚ), 3/5, 3/10] = [0, 1, 1/2] := by
    rw [normalize_eval3 _ _ _ 0 (3/5) (by norm_num [pyListMin, min_def])
      (by norm_num [pyListMax, max_def]) (by norm_num)]
    norm_num
  have hw : waitIndexes [c10rowA, c10rowB, c10rowC] 0.45 0.30 0.25 =
      [24999/100000, 11/20, 29/40] := by
    unfold waitIndexes
    rw [hp, ha, hv, hpn, han, hvn]
    norm_num [clampUnit, min_def, max_def]
  refine ⟨mkScored c10rowA (24999/100000), ?_, ?_⟩
  · unfold _score_rows
    rw [hw]
    simp
  · have h1 : (mkScored c10rowA (24999/100000)).wait_time_index = 1/4 := by
      show pyRound (24999/100000) 4 = 1/4
      norm_num [pyRound, round_eq]
    have h2 : (mkScored c10rowA (24999/100000)).wait_band = "0-6 months" := by
      show _wait_band (24999/100000) = "0-6 months"
      norm_num [_wait_band]
    rw [h1, h2]
    norm_num [_wait_band]
    decide

/-! ### Claim C4: the aggregator returns none exactly when no priced snapshot matches -/

/-- Claim C4: _calc_model_raw returns none if and only if no snapshot whose
listing_id belongs to one of the listings of the model carries a non-null
price; whenever such a priced snapshot exists it returns a populated record. -/
theorem claim_C4 (model_id : ℤ) (msrp : Option ℚ) (listing_rows : List ListingRow)
    (snapshot_rows : List SnapshotRow) (captured_date : String) :
    _calc_model_raw model_id msrp listing_rows snapshot_rows captured_date = none ↔
      ¬ ∃ s ∈ snapshot_rows, s.listing_id ∈ listing_rows.map (fun l => l.id) ∧
        s.price_value ≠ none := by
  unfold _calc_model_raw
  dsimp only
  by_cases h1 : listing_rows.map (fun l => l.id) = []
  · rw [if_pos h1, h1]
    simp
  rw [if_neg h1]
  by_cases h2 : snapshot_rows.filter (fun s => s.listing_id ∈ listing_rows.map (fun l => l.id)) = []
  · rw [if_pos h2]
    constructor
    · intro _ hex
      rcases hex with ⟨s, hs, hmem, _⟩
      have : s ∈ snapshot_rows.filter
          (fun s => s.listing_id ∈ listing_rows.map (fun l => l.id)) :=
        List.mem_filter.mpr ⟨hs, by simpa using hmem⟩
      rw [h2] at this
      cases this
    · intro _
      rfl
  rw [if_neg h2]
  by_cases h3 : (snapshot_rows.filter
      (fun s => s.listing_id ∈ listing_rows.map (fun l => l.id))).filterMap
        (fun s => s.price_value) = []
  · rw [if_pos h3]
    constructor
    · intro _ hex
      rcases hex with ⟨s, hs, hmem, hprice⟩
      have hsf : s ∈ snapshot_rows.filter
          (fun s => s.listing_id ∈ listing_rows.map (fun l => l.id)) :=
        List.mem_filter.mpr ⟨hs, by simpa using hmem⟩
      have := List.filterMap_eq_nil_iff.mp h3 s hsf
      exact hprice this
    · intro _
      rfl
  rw [if_neg h3]
  have hex : ∃ s ∈ snapshot_rows, s.listing_id ∈ listing_rows.map (fun l => l.id) ∧
      s.price_value ≠ none := by
    rcases List.exists_mem_of_ne_nil _ h3 with ⟨q, hq⟩
    rcases List.mem_filterMap.mp hq with ⟨s, hsf, hsp⟩
    have hm := List.mem_filter.mp hsf
    refine ⟨s, hm.1, by simpa using hm.2, ?_⟩
    rw [hsp]
    simp
  constructor
  · intro habs
    exact absurd habs (by simp)
  · intro hno
    exact absurd hex hno

/-- Witness for claim C4: one listing whose only snapshot has a null price is
skipped, not scored as a zero record. -/
theorem claim_C4_witness :
    _calc_model_raw 1 none [⟨1, 1, none, none⟩] [⟨1, "d", none, none, none, none⟩] "d" = none := by
  refine (claim_C4 1 none [⟨1, 1, none, none⟩] [⟨1, "d", none, none, none, none⟩] "d").mpr ?_
  rintro ⟨s, hs, -, hprice⟩
  simp only [List.mem_singleton] at hs
  subst hs
  exact hprice rfl

/-! ### Claim C9: the median and the premium rule -/

/-- pyMedian computes the textbook median read off any ascending-sorted
rearrangement of its input. -/
theorem pyMedian_eq_medianOfSorted (l s : List ℚ) (hperm : s.Perm l)
    (hs : s.Sorted (fun a b : ℚ => a ≤ b)) : pyMedian l = medianOfSorted s := by
  have h1 : List.insertionSort (fun a b : ℚ => a ≤ b) l = s :=
    List.eq_of_perm_of_sorted ((List.perm_insertionSort _ l).trans hperm.symm)
      (List.sorted_insertionSort _ l) hs
  unfold pyMedian medianOfSorted
  rw [h1]

/-- Claim C9: median_price is the standard statistical median of the matched
non-null prices (middle element of the sorted arrangement for an odd count,
mean of the two middle elements for an even count; [9000, 10000, 11000] gives
10000), and premium_over_msrp follows the premium rule: present exactly when
the reference price is present and strictly positive, equal to
(median / reference) - 1 there (0 exactly when median equals reference), null
otherwise. -/
theorem claim_C9 :
    (∀ l s : List ℚ, s.Perm l → s.Sorted (fun a b : ℚ => a ≤ b) →
      pyMedian l = medianOfSorted s) ∧
    (∀ a b c : ℚ, a ≤ b → b ≤ c → pyMedian [a, b, c] = b) ∧
    (∀ a b : ℚ, a ≤ b → pyMedian [a, b] = (a + b) / 2) ∧
    (∀ m : ℚ, 0 < m → premiumSpec (some m) m = some 0) ∧
    (∀ (model_id : ℤ) (msrp : Option ℚ) (listing_rows : List ListingRow)
      (snapshot_rows : List SnapshotRow) (captured_date : String) (r : ModelDayRaw),
      _calc_model_raw model_id msrp listing_rows snapshot_rows captured_date = some r →
        r.median_price = pyMedian (matchedPrices listing_rows snapshot_rows) ∧
        r.premium_over_msrp = premiumSpec msrp r.median_price) := by
  refine ⟨pyMedian_eq_medianOfSorted, ?_, ?_, ?_, ?_⟩
  · intro a b c hab hbc
    rw [pyMedian_eq_medianOfSorted [a, b, c] [a, b, c] (List.Perm.refl _)
      (by simp [List.sorted_cons]; exact ⟨⟨hab, hab.trans hbc⟩, hbc⟩)]
    simp [medianOfSorted]
  · intro a b hab
    rw [pyMedian_eq_medianOfSorted [a, b] [a, b] (List.Perm.refl _)
      (by simp [List.sorted_cons, hab])]
    simp [medianOfSorted]
  · intro m hm
    simp [premiumSpec, if_pos hm, div_self (ne_of_gt hm)]
  · intro model_id msrp listing_rows snapshot_rows captured_date r hr
    unfold _calc_model_raw at hr
    dsimp only at hr
    by_cases h1 : listing_rows.map (fun l => l.id) = []
    · rw [if_pos h1] at hr
      cases hr
    rw [if_neg h1] at hr
    by_cases h2 : snapshot_rows.filter
        (fun s => s.listing_id ∈ listing_rows.map (fun l => l.id)) = []
    · rw [if_pos h2] at hr
      cases hr
    rw [if_neg h2] at hr
    by_cases h3 : (snapshot_rows.filter
        (fun s => s.listing_id ∈ listing_rows.map (fun l => l.id))).filterMap
          (fun s => s.price_value) = []
    · rw [if_pos h3] at hr
      cases hr
    rw [if_neg h3] at hr
    have hrec := Option.some.inj hr
    subst hrec
    constructor
    · unfold matchedPrices
      rfl
    · unfold premiumSpec
      rfl

/-- Witness for claim C9 at the concrete prices of the unit test:
median of [9000, 10000, 11000] is exactly 10000, and a median equal to a
positive reference price gives premium exactly 0. -/
theorem claim_C9_witness :
    pyMedian [(9000 : ℚ), 10000, 11000] = 10000 ∧ premiumSpec (some 10000) 10000 = some 0 := by
  refine ⟨?_, claim_C9.2.2.2.1 10000 (by norm_num)⟩
  have h := claim_C9.2.1 9000 10000 11000 (by norm_num) (by norm_num)
  exact h

/-! ### Claim C5: determinism and idempotence of persistence -/

theorem find?_map_replace_eq (s : List ScoredRow) (r : ScoredRow)
    (hany : s.any (fun x => statKey x = statKey r) = true) :
    (s.map (fun x => if statKey x = statKey r then r else x)).find?
      (fun x => statKey x = statKey r) = some r := by
  induction s with
  | nil => cases hany
  | cons x xs ih =>
    by_cases hx : statKey x = statKey r
    · simp only [List.map_cons, if_pos hx]
      rw [List.find?_cons_of_pos _ (by simp)]
    · simp only [List.map_cons, if_neg hx]
      rw [List.find?_cons_of_neg _ (by simp [hx])]
      refine ih ?_
      rcases List.any_eq_true.mp hany with ⟨y, hy, hyr⟩
      rcases List.mem_cons.mp hy with h | h
      · subst h
        exact absurd (of_decide_eq_true hyr) hx
      · exact List.any_eq_true.mpr ⟨y, h, hyr⟩

theorem find?_map_replace_ne (s : List ScoredRow) (r : ScoredRow) (k : ℤ × String)
    (hk : statKey r ≠ k) :
    (s.map (fun x => if statKey x = statKey r then r else x)).find? (fun x => statKey x = k) =
      s.find? (fun x => statKey x = k) := by
  induction s with
  | nil => rfl
  | cons x xs ih =>
    by_cases hx : statKey x = statKey r
    · simp only [List.map_cons, if_pos hx]
      rw [List.find?_cons_of_neg _ (by simp [hk]),
        List.find?_cons_of_neg _ (by simp [hx, hk])]
      exact ih
    · simp only [List.map_cons, if_neg hx]
      by_cases hxk : statKey x = k
      · rw [List.find?_cons_of_pos _ (by simp [hxk]), List.find?_cons_of_pos _ (by simp [hxk])]
      · rw [List.find?_cons_of_neg _ (by simp [hxk]), List.find?_cons_of_neg _ (by simp [hxk])]
        exact ih

theorem findKey_upsertOne (s : List ScoredRow) (r : ScoredRow) (k : ℤ × String) :
    findKey (upsertOne s r) k = if statKey r = k then some r else findKey s k := by
  unfold upsertOne findKey
  by_cases hp : s.any (fun x => statKey x = statKey r) = true
  · rw [if_pos hp]
    by_cases hk : statKey r = k
    · rw [if_pos hk]
      subst hk
      exact find?_map_replace_eq s r hp
    · rw [if_neg hk]
      exact find?_map_replace_ne s r k hk
  · rw [if_neg hp, List.find?_append]
    have hsnone : s.find? (fun x => statKey x = k) = none ∨ statKey r ≠ k := by
      by_cases hk : statKey r = k
      · left
        rw [List.find?_eq_none]
        intro x hx hxk
        apply hp
        exact List.any_eq_true.mpr ⟨x, hx, by
          have := of_decide_eq_true hxk
          simp [this, hk]⟩
      · right
        exact hk
    by_cases hk : statKey r = k
    · rcases hsnone with hnone | hne
      · rw [hnone, if_pos hk]
        simp [List.find?, hk]
      · exact absurd hk hne
    · rw [if_neg hk]
      have : List.find? (fun x => statKey x = k) [r] = none := by
        simp [List.find?, hk]
      rw [this, Option.or_none]

theorem lastKey_foldl_init (rows : List ScoredRow) (init : Option ScoredRow) (k : ℤ × String) :
    rows.foldl (fun acc r => if statKey r = k then some r else acc) init =
      (lastKey rows k).or init := by
  induction rows generalizing init with
  | nil => rfl
  | cons x xs ih =>
    show xs.foldl _ (if statKey x = k then some x else init) = (lastKey (x :: xs) k).or init
    have hcons : lastKey (x :: xs) k =
        (lastKey xs k).or (if statKey x = k then some x else none) := by
      show xs.foldl _ (if statKey x = k then some x else none) = _
      rw [ih]
    rw [ih, hcons, Option.or_assoc]
    congr 1
    by_cases hx : statKey x = k
    · simp [hx]
    · simp [hx]

theorem findKey_upsert (rows : List ScoredRow) (s : List ScoredRow) (k : ℤ × String) :
    findKey (upsert_model_daily_stats s rows) k = (lastKey rows k).or (findKey s k) := by
  induction rows generalizing s with
  | nil => rfl
  | cons r rest ih =>
    show findKey (upsert_model_daily_stats (upsertOne s r) rest) k = _
    rw [ih, findKey_upsertOne]
    have hcons : lastKey (r :: rest) k =
        (lastKey rest k).or (if statKey r = k then some r else none) := by
      show rest.foldl _ (if statKey r = k then some r else none) = _
      rw [lastKey_foldl_init]
    rw [hcons, Option.or_assoc]
    congr 1
    by_cases hr : statKey r = k
    · simp [hr]
    · simp [hr]

theorem countKey_upsertOne (s : List ScoredRow) (r : ScoredRow) (k : ℤ × String) :
    countKey (upsertOne s r) k =
      if statKey r = k then max (countKey s k) 1 else countKey s k := by
  unfold upsertOne countKey
  by_cases hp : s.any (fun x => statKey x = statKey r) = true
  · rw [if_pos hp]
    have hmap : List.countP (fun x => statKey x = k)
        (s.map (fun x => if statKey x = statKey r then r else x)) =
        List.countP (fun x => statKey x = k) s := by
      rw [List.countP_map]
      refine List.countP_congr ?_
      intro x _
      by_cases hx : statKey x = statKey r
      · simp [Function.comp, hx]
      · simp [Function.comp, hx]
    rw [hmap]
    by_cases hk : statKey r = k
    · rw [if_pos hk]
      rcases List.any_eq_true.mp hp with ⟨y, hy, hyr⟩
      have hpos : 0 < List.countP (fun x => statKey x = k) s := by
        rw [List.countP_pos_iff]
        exact ⟨y, hy, by
          have := of_decide_eq_true hyr
          simp [this, hk]⟩
      omega
    · rw [if_neg hk]
  · rw [if_neg hp, List.countP_append]
    by_cases hk : statKey r = k
    · rw [if_pos hk]
      have hzero : List.countP (fun x => statKey x = k) s = 0 := by
        rw [List.countP_eq_zero]
        intro x hx hxk
        apply hp
        exact List.any_eq_true.mpr ⟨x, hx, by
          have := of_decide_eq_true hxk
          simp [this, hk]⟩
      rw [hzero]
      simp [List.countP_cons, hk]
    · rw [if_neg hk]
      have : List.countP (fun x => statKey x = k) [r] = 0 := by
        simp [List.countP_cons, hk]
      rw [this]
      omega

theorem countKey_upsert (rows : List ScoredRow) (s : List ScoredRow) (k : ℤ × String) :
    countKey (upsert_model_daily_stats s rows) k =
      if rows.any (fun r => statKey r = k) then max (countKey s k) 1 else countKey s k := by
  induction rows generalizing s with
  | nil => rfl
  | cons r rest ih =>
    show countKey (upsert_model_daily_stats (upsertOne s r) rest) k = _
    rw [ih, countKey_upsertOne]
    by_cases hr : statKey r = k
    · by_cases hrest : rest.any (fun x => statKey x = k) = true
      · simp only [hrest, if_pos, if_true, List.any_cons]
        rw [if_pos hr, max_assoc, max_self]
        simp [hr]
      · simp only [Bool.not_eq_true] at hrest
        simp [List.any_cons, hrest, hr]
    · by_cases hrest : rest.any (fun x => statKey x = k) = true
      · simp [List.any_cons, hrest, hr]
      · simp only [Bool.not_eq_true] at hrest
        simp [List.any_cons, hrest, hr]

/-- Claim C5: the stats computation is a deterministic function of the
fetched source data, and because persistence is an upsert keyed by
(model_id, captured_date), upserting the computed batch twice gives the same
stored row under every key as upserting it once, with exactly one stored row
per computed item and at most one stored row per key. -/
theorem claim_C5 (models : List BrandModel) (listing_rows : List ListingRow)
    (snapshot_rows : List SnapshotRow) (captured_date : String)
    (rows store : List ScoredRow)
    (hrows : rows = compute_model_daily_stats models listing_rows snapshot_rows captured_date)
    (hstore : ∀ k, countKey store k ≤ 1) :
    compute_model_daily_stats models listing_rows snapshot_rows captured_date = rows ∧
    (∀ k, findKey (upsert_model_daily_stats (upsert_model_daily_stats store rows) rows) k =
      findKey (upsert_model_daily_stats store rows) k) ∧
    (∀ r ∈ rows, countKey (upsert_model_daily_stats store rows) (statKey r) = 1) ∧
    (∀ k, countKey (upsert_model_daily_stats store rows) k ≤ 1) := by
  refine ⟨hrows.symm, ?_, ?_, ?_⟩
  · intro k
    rw [findKey_upsert, findKey_upsert]
    cases h : lastKey rows k with
    | none => simp
    | some v => simp
  · intro r hr
    rw [countKey_upsert]
    have hany : rows.any (fun x => statKey x = statKey r) = true :=
      List.any_eq_true.mpr ⟨r, hr, by simp⟩
    rw [if_pos hany]
    have := hstore (statKey r)
    omega
  · intro k
    rw [countKey_upsert]
    have := hstore k
    split
    · omega
    · exact this

/-- Witness for claim C5 on a one-model, one-listing, one-snapshot fetch and
an empty store: the stored row under the key (1, "D") is the same after
upserting the computed batch twice as after upserting it once. -/
theorem claim_C5_witness :
    findKey (upsert_model_daily_stats (upsert_model_daily_stats []
      (compute_model_daily_stats [⟨1, some 100⟩] [⟨1, 1, some "D", some "u"⟩]
        [⟨1, "D", some 120, some true, none, none⟩] "D"))
      (compute_model_daily_stats [⟨1, some 100⟩] [⟨1, 1, some "D", some "u"⟩]
        [⟨1, "D", some 120, some true, none, none⟩] "D")) (1, "D") =
    findKey (upsert_model_daily_stats []
      (compute_model_daily_stats [⟨1, some 100⟩] [⟨1, 1, some "D", some "u"⟩]
        [⟨1, "D", some 120, some true, none, none⟩] "D")) (1, "D") := by
  refine (claim_C5 [⟨1, some 100⟩] [⟨1, 1, some "D", some "u"⟩]
    [⟨1, "D", some 120, some true, none, none⟩] "D" _ [] rfl ?_).2.1 (1, "D")
  intro k
  simp [countKey]

/-! ### Helper lemmas about the association-list dicts -/

section DictLemmas

variable {K V : Type} [DecidableEq K]

theorem pair_find?_replace_eq (m : List (K × V)) (k : K) (v : V)
    (hany : m.any (fun p => p.1 = k) = true) :
    (m.map (fun p => if p.1 = k then (k, v) else p)).find? (fun p => p.1 = k) = some (k, v) := by
  induction m with
  | nil => cases hany
  | cons q rest ih =>
    by_cases hq : q.1 = k
    · simp only [List.map_cons, if_pos hq]
      rw [List.find?_cons_of_pos _ (by simp)]
    · simp only [List.map_cons, if_neg hq]
      rw [List.find?_cons_of_neg _ (by simp [hq])]
      refine ih ?_
      rcases List.any_eq_true.mp hany with ⟨y, hy, hyk⟩
      rcases List.mem_cons.mp hy with h | h
      · subst h
        exact absurd (of_decide_eq_true hyk) hq
      · exact List.any_eq_true.mpr ⟨y, h, hyk⟩

theorem pair_find?_replace_ne (m : List (K × V)) (k : K) (v : V) (k0 : K) (hk : k ≠ k0) :
    (m.map (fun p => if p.1 = k then (k, v) else p)).find? (fun p => p.1 = k0) =
      m.find? (fun p => p.1 = k0) := by
  induction m with
  | nil => rfl
  | cons q rest ih =>
    by_cases hq : q.1 = k
    · simp only [List.map_cons, if_pos hq]
      rw [List.find?_cons_of_neg _ (by simp [hk]),
        List.find?_cons_of_neg _ (by simp [hq, hk])]
      exact ih
    · simp only [List.map_cons, if_neg hq]
      by_cases hq0 : q.1 = k0
      · rw [List.find?_cons_of_pos _ (by simp [hq0]), List.find?_cons_of_pos _ (by simp [hq0])]
      · rw [List.find?_cons_of_neg _ (by simp [hq0]), List.find?_cons_of_neg _ (by simp [hq0])]
        exact ih

theorem dictGet?_dictSet (m : List (K × V)) (k : K) (v : V) (k0 : K) :
    dictGet? (dictSet m k v) k0 = if k = k0 then some v else dictGet? m k0 := by
  unfold dictSet dictGet?
  by_cases hany : m.any (fun p => p.1 = k) = true
  · rw [if_pos hany]
    by_cases hk : k = k0
    · subst hk
      rw [if_pos rfl, pair_find?_replace_eq m k v hany]
      rfl
    · rw [if_neg hk, pair_find?_replace_ne m k v k0 hk]
  · rw [if_neg hany, List.find?_append]
    by_cases hk : k = k0
    · subst hk
      have hnone : m.find? (fun p => p.1 = k) = none := by
        rw [List.find?_eq_none]
        intro x hx hxk
        exact hany (List.any_eq_true.mpr ⟨x, hx, hxk⟩)
      rw [hnone, if_pos rfl, Option.none_or, List.find?_cons_of_pos _ (by simp)]
      rfl
    · have : List.find? (fun p => p.1 = k0) [(k, v)] = none := by
        rw [List.find?_eq_none]
        intro x hx hxk
        rcases List.mem_singleton.mp hx with rfl
        exact hk (of_decide_eq_true hxk)
      rw [this, Option.or_none, if_neg hk]

theorem dictKeys_dictSet (m : List (K × V)) (k : K) (v : V) :
    (dictSet m k v).map Prod.fst =
      if m.any (fun p => p.1 = k) = true then m.map Prod.fst else m.map Prod.fst ++ [k] := by
  unfold dictSet
  by_cases hany : m.any (fun p => p.1 = k) = true
  · rw [if_pos hany, if_pos hany, List.map_map]
    refine List.map_congr_left ?_
    intro p _
    by_cases hp : p.1 = k
    · simp [hp]
    · simp [hp]
  · rw [if_neg hany, if_neg hany, List.map_append]
    rfl

theorem dictKeys_nodup_dictSet (m : List (K × V)) (k : K) (v : V)
    (h : (m.map Prod.fst).Nodup) : ((dictSet m k v).map Prod.fst).Nodup := by
  rw [dictKeys_dictSet]
  by_cases hany : m.any (fun p => p.1 = k) = true
  · rw [if_pos hany]
    exact h
  · rw [if_neg hany]
    refine List.Nodup.append h (List.nodup_singleton k) ?_
    intro x hx hxk
    rcases List.mem_singleton.mp hxk with rfl
    rcases List.mem_map.mp hx with ⟨p, hp, hpk⟩
    exact hany (List.any_eq_true.mpr ⟨p, hp, by simp [hpk]⟩)

theorem mem_dictKeys_iff (m : List (K × V)) (k : K) :
    k ∈ m.map Prod.fst ↔ (dictGet? m k).isSome = true := by
  unfold dictGet?
  constructor
  · intro hk
    rcases List.mem_map.mp hk with ⟨p, hp, hpk⟩
    have h : (m.find? (fun p => p.1 = k)).isSome = true :=
      List.find?_isSome.mpr ⟨p, hp, by simp [hpk]⟩
    cases hf : m.find? (fun p => p.1 = k) with
    | none => rw [hf] at h; cases h
    | some r => rfl
  · intro h
    cases hf : m.find? (fun p => p.1 = k) with
    | none => rw [hf] at h; cases h
    | some r =>
      have hq := List.find?_some hf
      have hmem := List.mem_of_find?_eq_some hf
      exact List.mem_map.mpr ⟨r, hmem, of_decide_eq_true hq⟩

theorem get_of_mem_dict (m : List (K × V)) (hnd : (m.map Prod.fst).Nodup) (p : K × V)
    (hp : p ∈ m) : dictGet? m p.1 = some p.2 := by
  induction m with
  | nil => cases hp
  | cons q rest ih =>
    rcases List.mem_cons.mp hp with h | h
    · subst h
      unfold dictGet?
      rw [List.find?_cons_of_pos _ (by simp)]
      rfl
    · rw [List.map_cons] at hnd
      have hnd2 := List.nodup_cons.mp hnd
      have hne : ¬ q.1 = p.1 := by
        intro he
        apply hnd2.1
        rw [he]
        exact List.mem_map.mpr ⟨p, h, rfl⟩
      unfold dictGet?
      rw [List.find?_cons_of_neg _ (by simp [hne])]
      exact ih hnd2.2 h

theorem mem_dict_of_get (m : List (K × V)) (p : K × V) (h : dictGet? m p.1 = some p.2) :
    p ∈ m := by
  unfold dictGet? at h
  cases hf : m.find? (fun q => q.1 = p.1) with
  | none => rw [hf] at h; cases h
  | some r =>
    rw [hf] at h
    have hpr := List.find?_some hf
    have hq1 : r.1 = p.1 := of_decide_eq_true hpr
    have hq2 : r.2 = p.2 := Option.some.inj h
    have hmem := List.mem_of_find?_eq_some hf
    have hqp : r = p := Prod.ext hq1 hq2
    rw [hqp] at hmem
    exact hmem

theorem length_filterMap_eq_countP {α β : Type} (l : List α) (f : α → Option β) :
    (l.filterMap f).length = l.countP (fun a => (f a).isSome) := by
  induction l with
  | nil => rfl
  | cons a rest ih =>
    cases hf : f a with
    | none =>
      rw [List.filterMap_cons_none hf, List.countP_cons]
      simp [hf, ih]
    | some b =>
      rw [List.filterMap_cons_some hf, List.countP_cons]
      simp [hf, ih]

theorem filterMap_map_key_sublist {α β γ : Type} (l : List α) (f : α → Option β) (g : β → γ)
    (key : α → γ) (h : ∀ a b, f a = some b → g b = key a) :
    ((l.filterMap f).map g).Sublist (l.map key) := by
  induction l with
  | nil => exact List.Sublist.refl []
  | cons a rest ih =>
    cases hf : f a with
    | none =>
      rw [List.filterMap_cons_none hf, List.map_cons]
      exact ih.cons (key a)
    | some b =>
      rw [List.filterMap_cons_some hf, List.map_cons, List.map_cons, h a b hf]
      exact ih.cons₂ (key a)

end DictLemmas

/-! ### Helper lemmas about the price-anomaly check -/

theorem priceRoute_get_fst (prev_date curr_date : String)
    (acc : List (ℤ × ℚ) × List (ℤ × ℚ)) (row : SnapshotRow) (lid : ℤ) :
    dictGet? (priceRoute prev_date curr_date acc row).1 lid =
      priceStep prev_date lid (dictGet? acc.1 lid) row := by
  unfold priceRoute priceStep
  cases hpv : row.price_value with
  | none => simp [hpv]
  | some price =>
    dsimp only
    by_cases hd1 : row.captured_date = prev_date
    · rw [if_pos hd1]
      by_cases hl : row.listing_id = lid
      · simp [dictGet?_dictSet, hd1, hpv, hl]
      · simp [dictGet?_dictSet, hd1, hpv, hl]
    · rw [if_neg hd1]
      by_cases hd2 : row.captured_date = curr_date
      · rw [hd2] at hd1
        simp [hd2, hd1]
      · simp [hd1, hd2]

theorem priceRoute_get_snd (prev_date curr_date : String) (hne : prev_date ≠ curr_date)
    (acc : List (ℤ × ℚ) × List (ℤ × ℚ)) (row : SnapshotRow) (lid : ℤ) :
    dictGet? (priceRoute prev_date curr_date acc row).2 lid =
      priceStep curr_date lid (dictGet? acc.2 lid) row := by
  unfold priceRoute priceStep
  cases hpv : row.price_value with
  | none => simp [hpv]
  | some price =>
    dsimp only
    by_cases hd1 : row.captured_date = prev_date
    · rw [if_pos hd1]
      have hd2 : ¬ row.captured_date = curr_date := by
        rw [hd1]
        exact hne
      simp [hd2]
    · rw [if_neg hd1]
      by_cases hd2 : row.captured_date = curr_date
      · rw [if_pos hd2]
        by_cases hl : row.listing_id = lid
        · simp [dictGet?_dictSet, hd2, hpv, hl]
        · simp [dictGet?_dictSet, hd2, hpv, hl]
      · simp [hd1, hd2]

theorem buildPriceDicts_fold_get (snaps : List SnapshotRow) (prev_date curr_date : String)
    (hne : prev_date ≠ curr_date) (lid : ℤ) :
    ∀ acc : List (ℤ × ℚ) × List (ℤ × ℚ),
      dictGet? (snaps.foldl (priceRoute prev_date curr_date) acc).1 lid =
        snaps.foldl (priceStep prev_date lid) (dictGet? acc.1 lid) ∧
      dictGet? (snaps.foldl (priceRoute prev_date curr_date) acc).2 lid =
        snaps.foldl (priceStep curr_date lid) (dictGet? acc.2 lid) := by
  induction snaps with
  | nil => exact fun acc => ⟨rfl, rfl⟩
  | cons r rest ih =>
    intro acc
    constructor
    · show dictGet? (rest.foldl _ (priceRoute prev_date curr_date acc r)).1 lid = _
      rw [(ih (priceRoute prev_date curr_date acc r)).1, priceRoute_get_fst]
      rfl
    · show dictGet? (rest.foldl _ (priceRoute prev_date curr_date acc r)).2 lid = _
      rw [(ih (priceRoute prev_date curr_date acc r)).2, priceRoute_get_snd _ _ hne]
      rfl

theorem buildPriceDicts_get (snaps : List SnapshotRow) (prev_date curr_date : String)
    (hne : prev_date ≠ curr_date) (lid : ℤ) :
    dictGet? (buildPriceDicts snaps prev_date curr_date).1 lid = priceOn snaps prev_date lid ∧
    dictGet? (buildPriceDicts snaps prev_date curr_date).2 lid = priceOn snaps curr_date lid := by
  have h := buildPriceDicts_fold_get snaps prev_date curr_date hne lid ([], [])
  have hnil : dictGet? ([] : List (ℤ × ℚ)) lid = none := rfl
  unfold buildPriceDicts priceOn
  rw [h.1, h.2, hnil]
  exact ⟨rfl, rfl⟩

theorem buildPriceDicts_keys_nodup (snaps : List SnapshotRow) (prev_date curr_date : String) :
    ((buildPriceDicts snaps prev_date curr_date).1.map Prod.fst).Nodup ∧
    ((buildPriceDicts snaps prev_date curr_date).2.map Prod.fst).Nodup := by
  suffices h : ∀ acc : List (ℤ × ℚ) × List (ℤ × ℚ),
      (acc.1.map Prod.fst).Nodup → (acc.2.map Prod.fst).Nodup →
      ((snaps.foldl (priceRoute prev_date curr_date) acc).1.map Prod.fst).Nodup ∧
      ((snaps.foldl (priceRoute prev_date curr_date) acc).2.map Prod.fst).Nodup by
    exact h ([], []) List.nodup_nil List.nodup_nil
  induction snaps with
  | nil => exact fun acc h1 h2 => ⟨h1, h2⟩
  | cons r rest ih =>
    intro acc h1 h2
    refine ih (priceRoute prev_date curr_date acc r) ?_ ?_
    · unfold priceRoute
      cases hpv : r.price_value with
      | none => exact h1
      | some price =>
        dsimp only
        by_cases hd1 : r.captured_date = prev_date
        · rw [if_pos hd1]
          exact dictKeys_nodup_dictSet _ _ _ h1
        · rw [if_neg hd1]
          by_cases hd2 : r.captured_date = curr_date
          · rw [if_pos hd2]
            exact h1
          · rw [if_neg hd2]
            exact h1
    · unfold priceRoute
      cases hpv : r.price_value with
      | none => exact h2
      | some price =>
        dsimp only
        by_cases hd1 : r.captured_date = prev_date
        · rw [if_pos hd1]
          exact h2
        · rw [if_neg hd1]
          by_cases hd2 : r.captured_date = curr_date
          · rw [if_pos hd2]
            exact dictKeys_nodup_dictSet _ _ _ h2
          · rw [if_neg hd2]
            exact h2

theorem priceOn_fold_isSome (snaps : List SnapshotRow) (d : String) (lid : ℤ) :
    ∀ a : Option ℚ, (snaps.foldl (priceStep d lid) a).isSome = true ↔
      (∃ r ∈ snaps, r.listing_id = lid ∧ r.captured_date = d ∧ r.price_value.isSome = true) ∨
        a.isSome = true := by
  induction snaps with
  | nil => simp
  | cons r rest ih =>
    intro a
    show (rest.foldl _ (priceStep d lid a r)).isSome = true ↔ _
    rw [ih (priceStep d lid a r)]
    unfold priceStep
    constructor
    · rintro (⟨x, hx, hxp⟩ | hsome)
      · exact Or.inl ⟨x, List.mem_cons_of_mem r hx, hxp⟩
      · by_cases hc : r.listing_id = lid ∧ r.captured_date = d ∧ r.price_value.isSome = true
        · exact Or.inl ⟨r, List.mem_cons_self r rest, hc⟩
        · rw [if_neg hc] at hsome
          exact Or.inr hsome
    · rintro (⟨x, hx, hxp⟩ | hsome)
      · rcases List.mem_cons.mp hx with hxr | hxr
        · subst hxr
          right
          rw [if_pos hxp]
          exact hxp.2.2
        · exact Or.inl ⟨x, hxr, hxp⟩
      · right
        by_cases hc : r.listing_id = lid ∧ r.captured_date = d ∧ r.price_value.isSome = true
        · rw [if_pos hc]
          exact hc.2.2
        · rw [if_neg hc]
          exact hsome

theorem priceOn_isSome_iff (snaps : List SnapshotRow) (d : String) (lid : ℤ) :
    (priceOn snaps d lid).isSome = true ↔ lid ∈ currLids snaps d := by
  unfold priceOn currLids
  rw [priceOn_fold_isSome snaps d lid none]
  simp only [Option.isSome_none, Bool.false_eq_true, or_false, List.mem_filterMap]
  constructor
  · rintro ⟨r, hr, hl, hd, hp⟩
    refine ⟨r, hr, ?_⟩
    rw [if_pos ⟨hd, hp⟩, hl]
  · rintro ⟨r, hr, hcond⟩
    by_cases hc : r.captured_date = d ∧ r.price_value.isSome = true
    · rw [if_pos hc] at hcond
      exact ⟨r, hr, Option.some.inj hcond, hc⟩
    · rw [if_neg hc] at hcond
      cases hcond

theorem flag_mem_currLids (snaps : List SnapshotRow) (prev_date curr_date : String) (thr : ℚ)
    (lid : ℤ) (hflag : anomalyFlag snaps prev_date curr_date thr lid = true) :
    lid ∈ currLids snaps curr_date := by
  unfold anomalyFlag at hflag
  cases hcurr : priceOn snaps curr_date lid with
  | none => rw [hcurr] at hflag; cases hflag
  | some c =>
    refine (priceOn_isSome_iff snaps curr_date lid).mp ?_
    rw [hcurr]
    rfl

theorem mem_anomaliesOf (snaps : List SnapshotRow) (prev_date curr_date : String) (thr : ℚ)
    (hne : prev_date ≠ curr_date) (e : AnomalyEntry) :
    e ∈ anomaliesOf snaps prev_date curr_date thr ↔
      ∃ lid, anomalyFlag snaps prev_date curr_date thr lid = true ∧
        e = mkEntryOf snaps prev_date curr_date lid := by
  unfold anomaliesOf
  dsimp only
  rw [List.mem_filterMap]
  constructor
  · rintro ⟨pc, hpc, hf⟩
    have hcurr : priceOn snaps curr_date pc.1 = some pc.2 := by
      rw [← (buildPriceDicts_get snaps prev_date curr_date hne pc.1).2]
      exact get_of_mem_dict _ (buildPriceDicts_keys_nodup snaps prev_date curr_date).2 pc hpc
    rw [(buildPriceDicts_get snaps prev_date curr_date hne pc.1).1] at hf
    cases hprev : priceOn snaps prev_date pc.1 with
    | none => rw [hprev] at hf; cases hf
    | some prev =>
      rw [hprev] at hf
      dsimp only at hf
      by_cases hp0 : prev ≤ 0
      · rw [if_pos hp0] at hf
        cases hf
      rw [if_neg hp0] at hf
      by_cases hpct : thr < |(pc.2 - prev) / prev| * 100
      · rw [if_pos hpct] at hf
        refine ⟨pc.1, ?_, ?_⟩
        · unfold anomalyFlag
          rw [hcurr, hprev]
          simp [not_le.mp hp0, hpct]
        · rw [← Option.some.inj hf]
          simp [mkEntryOf, hcurr, hprev]
      · rw [if_neg hpct] at hf
        cases hf
  · rintro ⟨lid, hflag, he⟩
    unfold anomalyFlag at hflag
    cases hcurr : priceOn snaps curr_date lid with
    | none => rw [hcurr] at hflag; cases hflag
    | some c =>
      rw [hcurr] at hflag
      cases hprev : priceOn snaps prev_date lid with
      | none => rw [hprev] at hflag; cases hflag
      | some p =>
        rw [hprev, Bool.and_eq_true] at hflag
        have hp : (0 : ℚ) < p := of_decide_eq_true hflag.1
        have hpct : thr < |(c - p) / p| * 100 := of_decide_eq_true hflag.2
        refine ⟨(lid, c), ?_, ?_⟩
        · refine mem_dict_of_get _ (lid, c) ?_
          rw [(buildPriceDicts_get snaps prev_date curr_date hne lid).2]
          exact hcurr
        · rw [(buildPriceDicts_get snaps prev_date curr_date hne lid).1]
          rw [hprev]
          dsimp only
          rw [if_neg (not_le.mpr hp), if_pos hpct, he]
          simp [mkEntryOf, hcurr, hprev]

theorem anomaliesOf_nodup (snaps : List SnapshotRow) (prev_date curr_date : String) (thr : ℚ) :
    (anomaliesOf snaps prev_date curr_date thr).Nodup := by
  have hmapped : (List.map (fun e : AnomalyEntry => e.listing_id)
      (anomaliesOf snaps prev_date curr_date thr)).Nodup := by
    unfold anomaliesOf
    dsimp only
    refine List.Sublist.nodup
      (filterMap_map_key_sublist _ _ (fun e : AnomalyEntry => e.listing_id) Prod.fst ?_)
      (buildPriceDicts_keys_nodup snaps prev_date curr_date).2
    intro pc e hf
    cases hprev : dictGet? (buildPriceDicts snaps prev_date curr_date).1 pc.1 with
    | none => rw [hprev] at hf; cases hf
    | some prev =>
      rw [hprev] at hf
      dsimp only at hf
      by_cases hp0 : prev ≤ 0
      · rw [if_pos hp0] at hf
        cases hf
      rw [if_neg hp0] at hf
      by_cases hpct : thr < |(pc.2 - prev) / prev| * 100
      · rw [if_pos hpct] at hf
        rw [← Option.some.inj hf]
      · rw [if_neg hpct] at hf
        cases hf
  exact List.Nodup.of_map _ hmapped

theorem currKeys_perm (snaps : List SnapshotRow) (prev_date curr_date : String)
    (hne : prev_date ≠ curr_date) :
    ((buildPriceDicts snaps prev_date curr_date).2.map Prod.fst).Perm
      (currLids snaps curr_date).dedup := by
  refine (List.perm_ext_iff_of_nodup
    (buildPriceDicts_keys_nodup snaps prev_date curr_date).2 (List.nodup_dedup _)).mpr ?_
  intro lid
  rw [List.mem_dedup, mem_dictKeys_iff, (buildPriceDicts_get snaps prev_date curr_date hne lid).2,
    priceOn_isSome_iff]

theorem anomaliesOf_length (snaps : List SnapshotRow) (prev_date curr_date : String) (thr : ℚ)
    (hne : prev_date ≠ curr_date) :
    (anomaliesOf snaps prev_date curr_date thr).length =
      (currLids snaps curr_date).dedup.countP (anomalyFlag snaps prev_date curr_date thr) := by
  unfold anomaliesOf
  dsimp only
  rw [length_filterMap_eq_countP]
  have hcongr : List.countP
      (fun pc => (match dictGet? (buildPriceDicts snaps prev_date curr_date).1 pc.1 with
        | none => none
        | some prev =>
          if prev ≤ 0 then none
          else
            if thr < |(pc.2 - prev) / prev| * 100 then
              some
                { listing_id := pc.1
                  prev_price := pyRound prev 2
                  curr_price := pyRound pc.2 2
                  pct_jump := pyRound (|(pc.2 - prev) / prev| * 100) 2 }
            else none : Option AnomalyEntry).isSome)
      (buildPriceDicts snaps prev_date curr_date).2 =
      List.countP (fun pc => anomalyFlag snaps prev_date curr_date thr pc.1)
        (buildPriceDicts snaps prev_date curr_date).2 := by
    refine List.countP_congr ?_
    intro pc hpc
    have hcurr : priceOn snaps curr_date pc.1 = some pc.2 := by
      rw [← (buildPriceDicts_get snaps prev_date curr_date hne pc.1).2]
      exact get_of_mem_dict _ (buildPriceDicts_keys_nodup snaps prev_date curr_date).2 pc hpc
    rw [(buildPriceDicts_get snaps prev_date curr_date hne pc.1).1]
    unfold anomalyFlag
    rw [hcurr]
    cases hprev : priceOn snaps prev_date pc.1 with
    | none => simp
    | some p =>
      dsimp only
      by_cases hp0 : p ≤ 0
      · simp [if_pos hp0, not_lt.mpr hp0]
      · rw [if_neg hp0]
        by_cases hpct : thr < |(pc.2 - p) / p| * 100
        · simp [if_pos hpct, not_le.mp hp0, hpct]
        · simp [if_neg hpct, hpct]
  rw [hcongr]
  have hmap : List.countP (fun pc => anomalyFlag snaps prev_date curr_date thr pc.1)
      (buildPriceDicts snaps prev_date curr_date).2 =
      List.countP (anomalyFlag snaps prev_date curr_date thr)
        ((buildPriceDicts snaps prev_date curr_date).2.map Prod.fst) := by
    rw [List.countP_map]
    rfl
  rw [hmap]
  exact (currKeys_perm snaps prev_date curr_date hne).countP_eq _

theorem anomaliesOf_perm (snaps : List SnapshotRow) (prev_date curr_date : String) (thr : ℚ)
    (hne : prev_date ≠ curr_date) :
    (anomaliesOf snaps prev_date curr_date thr).Perm
      (((currLids snaps curr_date).dedup.filter (anomalyFlag snaps prev_date curr_date thr)).map
        (mkEntryOf snaps prev_date curr_date)) := by
  have hinj : Function.Injective (mkEntryOf snaps prev_date curr_date) := by
    intro a b hab
    have := congrArg AnomalyEntry.listing_id hab
    simpa [mkEntryOf] using this
  refine (List.perm_ext_iff_of_nodup (anomaliesOf_nodup snaps prev_date curr_date thr)
    (List.Nodup.map hinj ((List.nodup_dedup _).filter _))).mpr ?_
  intro e
  rw [mem_anomaliesOf snaps prev_date curr_date thr hne e, List.mem_map]
  constructor
  · rintro ⟨lid, hflag, he⟩
    exact ⟨lid, List.mem_filter.mpr
      ⟨List.mem_dedup.mpr (flag_mem_currLids snaps prev_date curr_date thr lid hflag), hflag⟩,
      he.symm⟩
  · rintro ⟨lid, hmem, he⟩
    exact ⟨lid, (List.mem_filter.mp hmem).2, he.symm⟩

/-! ### Claim C6: the price-anomaly check -/

/-- Claim C6: a listing is flagged exactly when it has a price on both dates,
the prior price is strictly positive, and pct_jump = abs(curr - prev) / prev
times 100 strictly exceeds the threshold; the reported count is the number of
flagged listings, and the examples are the top 10 flagged entries by pct_jump
descending. -/
theorem claim_C6 (snaps : List SnapshotRow) (prev_date curr_date : String)
    (threshold_pct : ℚ) (hne : prev_date ≠ curr_date) :
    (_check_price_anomalies snaps prev_date curr_date threshold_pct).1 =
      (currLids snaps curr_date).dedup.countP
        (anomalyFlag snaps prev_date curr_date threshold_pct) ∧
    List.Sorted (fun a b : AnomalyEntry => b.pct_jump ≤ a.pct_jump)
      (_check_price_anomalies snaps prev_date curr_date threshold_pct).2 ∧
    (_check_price_anomalies snaps prev_date curr_date threshold_pct).2.length =
      min 10 (_check_price_anomalies snaps prev_date curr_date threshold_pct).1 ∧
    ∃ rest, ((_check_price_anomalies snaps prev_date curr_date threshold_pct).2 ++ rest).Perm
        (((currLids snaps curr_date).dedup.filter
          (anomalyFlag snaps prev_date curr_date threshold_pct)).map
            (mkEntryOf snaps prev_date curr_date)) ∧
      ∀ a ∈ (_check_price_anomalies snaps prev_date curr_date threshold_pct).2,
        ∀ b ∈ rest, b.pct_jump ≤ a.pct_jump := by
  have hsorted : List.Sorted (fun a b : AnomalyEntry => b.pct_jump ≤ a.pct_jump)
      (List.insertionSort (fun a b : AnomalyEntry => b.pct_jump ≤ a.pct_jump)
        (anomaliesOf snaps prev_date curr_date threshold_pct)) :=
    List.sorted_insertionSort _ _
  have hfull : List.Pairwise (fun a b : AnomalyEntry => b.pct_jump ≤ a.pct_jump)
      (List.take 10 (List.insertionSort (fun a b : AnomalyEntry => b.pct_jump ≤ a.pct_jump)
          (anomaliesOf snaps prev_date curr_date threshold_pct)) ++
        List.drop 10 (List.insertionSort (fun a b : AnomalyEntry => b.pct_jump ≤ a.pct_jump)
          (anomaliesOf snaps prev_date curr_date threshold_pct))) := by
    rw [List.take_append_drop]
    exact hsorted
  refine ⟨anomaliesOf_length snaps prev_date curr_date threshold_pct hne, ?_, ?_, ?_⟩
  · exact hsorted.sublist (List.take_sublist 10 _)
  · show (List.take 10 (List.insertionSort (fun a b : AnomalyEntry => b.pct_jump ≤ a.pct_jump)
        (anomaliesOf snaps prev_date curr_date threshold_pct))).length =
      min 10 (anomaliesOf snaps prev_date curr_date threshold_pct).length
    rw [List.length_take, (List.perm_insertionSort _ _).length_eq]
  · refine ⟨List.drop 10 (List.insertionSort (fun a b : AnomalyEntry => b.pct_jump ≤ a.pct_jump)
      (anomaliesOf snaps prev_date curr_date threshold_pct)), ?_, ?_⟩
    · show (List.take 10 (List.insertionSort (fun a b : AnomalyEntry => b.pct_jump ≤ a.pct_jump)
          (anomaliesOf snaps prev_date curr_date threshold_pct)) ++
        List.drop 10 (List.insertionSort (fun a b : AnomalyEntry => b.pct_jump ≤ a.pct_jump)
          (anomaliesOf snaps prev_date curr_date threshold_pct))).Perm _
      rw [List.take_append_drop]
      exact (List.perm_insertionSort _ _).trans
        (anomaliesOf_perm snaps prev_date curr_date threshold_pct hne)
    · intro a ha b hb
      exact (List.pairwise_append.mp hfull).2.2 a ha b hb

/-- Witness for claim C6 at the spec scenario: with threshold 25, the listing
jumping 100 to 130 (pct_jump 30) is flagged, the listing jumping 100 to 120
(pct_jump 20) is not, and the reported count is 1. -/
theorem claim_C6_witness :
    (_check_price_anomalies c6snaps "p" "c" 25).1 = 1 ∧
    anomalyFlag c6snaps "p" "c" 25 1 = true ∧
    anomalyFlag c6snaps "p" "c" 25 2 = false := by
  have hc1 : priceOn c6snaps "c" 1 = some 130 := by
    simp [priceOn, priceStep, c6snaps]
  have hp1 : priceOn c6snaps "p" 1 = some 100 := by
    simp [priceOn, priceStep, c6snaps]
  have hc2 : priceOn c6snaps "c" 2 = some 120 := by
    simp [priceOn, priceStep, c6snaps]
  have hp2 : priceOn c6snaps "p" 2 = some 100 := by
    simp [priceOn, priceStep, c6snaps]
  have hflag1 : anomalyFlag c6snaps "p" "c" 25 1 = true := by
    unfold anomalyFlag
    rw [hc1, hp1]
    dsimp only
    rw [Bool.and_eq_true, decide_eq_true_eq, decide_eq_true_eq]
    constructor
    · norm_num
    · rw [show ((130 : ℚ) - 100) / 100 = 3 / 10 by norm_num,
        abs_of_nonneg (by norm_num : (0 : ℚ) ≤ 3 / 10)]
      norm_num
  have hflag2 : anomalyFlag c6snaps "p" "c" 25 2 = false := by
    unfold anomalyFlag
    rw [hc2, hp2]
    dsimp only
    rw [show ((120 : ℚ) - 100) / 100 = 1 / 5 by norm_num,
      abs_of_nonneg (by norm_num : (0 : ℚ) ≤ 1 / 5)]
    have hnot : ¬ (25 : ℚ) < 1 / 5 * 100 := by norm_num
    simp [hnot]
    norm_num
  refine ⟨?_, hflag1, hflag2⟩
  rw [(claim_C6 c6snaps "p" "c" 25 (by decide)).1]
  have hlids : currLids c6snaps "c" = [1, 2] := by
    simp [currLids, c6snaps]
  rw [hlids]
  have hded : ([1, 2] : List ℤ).dedup = [1, 2] := by decide
  rw [hded, List.countP_cons, List.countP_cons, List.countP_nil]
  simp [hflag1, hflag2]

/-! ### Helper lemmas about the duplicate-URL check -/

theorem trimmedUrls_cons_skip (u : Option String) (rest : List (Option String))
    (hs : pyStrip (u.getD "") = "") :
    trimmedUrls (u :: rest) = trimmedUrls rest := by
  unfold trimmedUrls
  rw [List.filterMap_cons]
  dsimp only
  rw [if_pos hs]

theorem trimmedUrls_cons_keep (u : Option String) (rest : List (Option String))
    (hs : ¬ pyStrip (u.getD "") = "") :
    trimmedUrls (u :: rest) = pyStrip (u.getD "") :: trimmedUrls rest := by
  unfold trimmedUrls
  rw [List.filterMap_cons]
  dsimp only
  rw [if_neg hs]

theorem trimmedUrls_ne_empty (urls : List (Option String)) :
    ∀ x ∈ trimmedUrls urls, x ≠ "" := by
  intro x hx
  unfold trimmedUrls at hx
  rcases List.mem_filterMap.mp hx with ⟨u, _, hf⟩
  dsimp only at hf
  by_cases hs : pyStrip (u.getD "") = ""
  · rw [if_pos hs] at hf
    cases hf
  · rw [if_neg hs] at hf
    rw [← Option.some.inj hf]
    exact hs

theorem urlTally_fold (urls : List (Option String)) (u0 : String) :
    ∀ m : List (String × ℕ),
      (dictGet? (urls.foldl urlTally m) u0).getD 0 =
        (dictGet? m u0).getD 0 + (trimmedUrls urls).count u0 ∧
      ((dictGet? (urls.foldl urlTally m) u0).isSome = true ↔
        (dictGet? m u0).isSome = true ∨ u0 ∈ trimmedUrls urls) := by
  induction urls with
  | nil =>
    intro m
    constructor
    · show (dictGet? m u0).getD 0 = (dictGet? m u0).getD 0 + (trimmedUrls []).count u0
      simp [trimmedUrls]
    · show (dictGet? m u0).isSome = true ↔ _
      simp [trimmedUrls]
  | cons u rest ih =>
    intro m
    have hfold : (u :: rest).foldl urlTally m = rest.foldl urlTally (urlTally m u) := rfl
    rw [hfold]
    by_cases hs : pyStrip (u.getD "") = ""
    · have hstep : urlTally m u = m := by
        unfold urlTally
        rw [if_pos hs]
      rw [trimmedUrls_cons_skip u rest hs, hstep]
      exact ih m
    · have hstep : urlTally m u =
          dictSet m (pyStrip (u.getD "")) ((dictGet? m (pyStrip (u.getD ""))).getD 0 + 1) := by
        unfold urlTally
        rw [if_neg hs]
      rw [trimmedUrls_cons_keep u rest hs, hstep]
      have hih := ih (dictSet m (pyStrip (u.getD "")) ((dictGet? m (pyStrip (u.getD ""))).getD 0 + 1))
      constructor
      · rw [hih.1, dictGet?_dictSet]
        by_cases he : pyStrip (u.getD "") = u0
        · rw [if_pos he, he, List.count_cons_self]
          simp
          omega
        · rw [if_neg he]
          rw [List.count_cons_of_ne (fun hc => he hc.symm)]
      · rw [hih.2, dictGet?_dictSet]
        by_cases he : pyStrip (u.getD "") = u0
        · rw [if_pos he]
          simp [he.symm, List.mem_cons]
        · rw [if_neg he]
          have : (u0 ∈ pyStrip (u.getD "") :: trimmedUrls rest) ↔ u0 ∈ trimmedUrls rest := by
            rw [List.mem_cons]
            constructor
            · rintro (h | h)
              · exact absurd h.symm he
              · exact h
            · exact Or.inr
          rw [this]

theorem buildUrlCounts_get (urls : List (Option String)) (u0 : String) :
    (dictGet? (buildUrlCounts urls) u0).getD 0 = (trimmedUrls urls).count u0 ∧
    ((dictGet? (buildUrlCounts urls) u0).isSome = true ↔ u0 ∈ trimmedUrls urls) := by
  have h := urlTally_fold urls u0 []
  unfold buildUrlCounts
  have hnil : dictGet? ([] : List (String × ℕ)) u0 = none := rfl
  rw [hnil] at h
  simpa using h

theorem buildUrlCounts_keys (urls : List (Option String)) :
    ((buildUrlCounts urls).map Prod.fst).Nodup ∧
      ∀ k ∈ (buildUrlCounts urls).map Prod.fst, k ≠ "" := by
  suffices h : ∀ m : List (String × ℕ), (m.map Prod.fst).Nodup →
      (∀ k ∈ m.map Prod.fst, k ≠ "") →
      ((urls.foldl urlTally m).map Prod.fst).Nodup ∧
        ∀ k ∈ (urls.foldl urlTally m).map Prod.fst, k ≠ "" by
    exact h [] List.nodup_nil (by intro k hk; cases hk)
  induction urls with
  | nil => exact fun m h1 h2 => ⟨h1, h2⟩
  | cons u rest ih =>
    intro m h1 h2
    refine ih (urlTally m u) ?_ ?_
    · unfold urlTally
      by_cases hs : pyStrip (u.getD "") = ""
      · rw [if_pos hs]
        exact h1
      · rw [if_neg hs]
        exact dictKeys_nodup_dictSet _ _ _ h1
    · unfold urlTally
      by_cases hs : pyStrip (u.getD "") = ""
      · rw [if_pos hs]
        exact h2
      · rw [if_neg hs]
        intro k hk
        rw [dictKeys_dictSet] at hk
        by_cases hany : m.any (fun p => p.1 = pyStrip (u.getD "")) = true
        · rw [if_pos hany] at hk
          exact h2 k hk
        · rw [if_neg hany] at hk
          rcases List.mem_append.mp hk with h | h
          · exact h2 k h
          · rcases List.mem_singleton.mp h with rfl
            exact hs

theorem mem_buildUrlCounts (urls : List (Option String)) (p : String × ℕ)
    (hp : p ∈ buildUrlCounts urls) : p.1 ≠ "" ∧ p.2 = (trimmedUrls urls).count p.1 := by
  have hkeys := buildUrlCounts_keys urls
  have hk : p.1 ∈ (buildUrlCounts urls).map Prod.fst := List.mem_map.mpr ⟨p, hp, rfl⟩
  have hne := hkeys.2 _ hk
  have hget := get_of_mem_dict _ hkeys.1 p hp
  have hval := (buildUrlCounts_get urls p.1).1
  rw [hget] at hval
  exact ⟨hne, by simpa using hval⟩

theorem mem_dupGroupsOf (urls : List (Option String)) (e : DupEntry) :
    e ∈ dupGroupsOf urls ↔
      ∃ u, 1 < (trimmedUrls urls).count u ∧ e = mkDupOf urls u := by
  unfold dupGroupsOf
  rw [List.mem_filterMap]
  constructor
  · rintro ⟨p, hp, hf⟩
    have hv := mem_buildUrlCounts urls p hp
    by_cases h2 : 1 < p.2
    · rw [if_pos h2] at hf
      refine ⟨p.1, by rw [← hv.2]; exact h2, ?_⟩
      rw [← Option.some.inj hf]
      simp [mkDupOf, hv.2]
    · rw [if_neg h2] at hf
      cases hf
  · rintro ⟨u, hcount, he⟩
    have hmemtn : u ∈ trimmedUrls urls := by
      refine List.count_pos_iff.mp ?_
      omega
    have hsome : (dictGet? (buildUrlCounts urls) u).isSome = true :=
      (buildUrlCounts_get urls u).2.mpr hmemtn
    cases hget : dictGet? (buildUrlCounts urls) u with
    | none => rw [hget] at hsome; cases hsome
    | some v =>
      have hval : v = (trimmedUrls urls).count u := by
        have h := (buildUrlCounts_get urls u).1
        rw [hget] at h
        simpa using h
      refine ⟨(u, v), mem_dict_of_get _ (u, v) hget, ?_⟩
      rw [if_pos (by rw [hval]; exact hcount : 1 < (u, v).2)]
      rw [he]
      simp [mkDupOf, hval]

theorem dupGroupsOf_nodup (urls : List (Option String)) : (dupGroupsOf urls).Nodup := by
  have hmapped : (List.map (fun e : DupEntry => e.url) (dupGroupsOf urls)).Nodup := by
    unfold dupGroupsOf
    refine List.Sublist.nodup
      (filterMap_map_key_sublist _ _ (fun e : DupEntry => e.url) Prod.fst ?_)
      (buildUrlCounts_keys urls).1
    intro p e hf
    by_cases h2 : 1 < p.2
    · rw [if_pos h2] at hf
      rw [← Option.some.inj hf]
    · rw [if_neg h2] at hf
      cases hf
  exact List.Nodup.of_map _ hmapped

theorem urlKeys_perm (urls : List (Option String)) :
    ((buildUrlCounts urls).map Prod.fst).Perm (trimmedUrls urls).dedup := by
  refine (List.perm_ext_iff_of_nodup (buildUrlCounts_keys urls).1 (List.nodup_dedup _)).mpr ?_
  intro u
  rw [List.mem_dedup, mem_dictKeys_iff, (buildUrlCounts_get urls u).2]

theorem dupGroupsOf_length (urls : List (Option String)) :
    (dupGroupsOf urls).length =
      (trimmedUrls urls).dedup.countP (fun u => 1 < (trimmedUrls urls).count u) := by
  unfold dupGroupsOf
  rw [length_filterMap_eq_countP]
  have hcongr : List.countP
      (fun p => (if 1 < p.2 then some ({ url := p.1, count := p.2 } : DupEntry) else none).isSome)
      (buildUrlCounts urls) =
      List.countP (fun p => 1 < (trimmedUrls urls).count p.1) (buildUrlCounts urls) := by
    refine List.countP_congr ?_
    intro p hp
    have hv := mem_buildUrlCounts urls p hp
    by_cases h2 : 1 < p.2
    · simp [if_pos h2, hv.2 ▸ h2]
    · simp [if_neg h2, hv.2 ▸ h2]
  rw [hcongr]
  have hmap : List.countP (fun p => 1 < (trimmedUrls urls).count p.1) (buildUrlCounts urls) =
      List.countP (fun u => 1 < (trimmedUrls urls).count u)
        ((buildUrlCounts urls).map Prod.fst) := by
    rw [List.countP_map]
    rfl
  rw [hmap]
  exact (urlKeys_perm urls).countP_eq _

theorem dupGroupsOf_perm (urls : List (Option String)) :
    (dupGroupsOf urls).Perm
      (((trimmedUrls urls).dedup.filter (fun u => 1 < (trimmedUrls urls).count u)).map
        (mkDupOf urls)) := by
  have hinj : Function.Injective (mkDupOf urls) := by
    intro a b hab
    have := congrArg DupEntry.url hab
    simpa [mkDupOf] using this
  refine (List.perm_ext_iff_of_nodup (dupGroupsOf_nodup urls)
    (List.Nodup.map hinj ((List.nodup_dedup _).filter _))).mpr ?_
  intro e
  rw [mem_dupGroupsOf urls e, List.mem_map]
  constructor
  · rintro ⟨u, hcount, he⟩
    have hmem : u ∈ trimmedUrls urls := by
      refine List.count_pos_iff.mp ?_
      omega
    exact ⟨u, List.mem_filter.mpr ⟨List.mem_dedup.mpr hmem, by simpa using hcount⟩, he.symm⟩
  · rintro ⟨u, hmem, he⟩
    exact ⟨u, by simpa using (List.mem_filter.mp hmem).2, he.symm⟩

/-! ### Claim C7: the duplicate-URL check -/

/-- Claim C7: the duplicate check groups listings by trimmed URL text,
ignores URLs empty after trimming, counts as duplicate groups exactly the
trimmed URLs occurring more than once, reports that count, and reports as
examples the top 10 groups by occurrence count descending; in particular
["a", "a", "b"] yields duplicate count 1 with the single group ("a", 2). -/
theorem claim_C7 (urls : List (Option String)) :
    (_check_duplicate_urls urls).1 =
      (trimmedUrls urls).dedup.countP (fun u => 1 < (trimmedUrls urls).count u) ∧
    List.Sorted (fun a b : DupEntry => b.count ≤ a.count) (_check_duplicate_urls urls).2 ∧
    (_check_duplicate_urls urls).2.length = min 10 (_check_duplicate_urls urls).1 ∧
    (∃ rest, ((_check_duplicate_urls urls).2 ++ rest).Perm
        (((trimmedUrls urls).dedup.filter (fun u => 1 < (trimmedUrls urls).count u)).map
          (mkDupOf urls)) ∧
      ∀ a ∈ (_check_duplicate_urls urls).2, ∀ b ∈ rest, b.count ≤ a.count) ∧
    _check_duplicate_urls [some "a", some "a", some "b"] = (1, [⟨"a", 2⟩]) := by
  have hsorted : List.Sorted (fun a b : DupEntry => b.count ≤ a.count)
      (List.insertionSort (fun a b : DupEntry => b.count ≤ a.count) (dupGroupsOf urls)) :=
    List.sorted_insertionSort _ _
  have hfull : List.Pairwise (fun a b : DupEntry => b.count ≤ a.count)
      (List.take 10 (List.insertionSort (fun a b : DupEntry => b.count ≤ a.count)
          (dupGroupsOf urls)) ++
        List.drop 10 (List.insertionSort (fun a b : DupEntry => b.count ≤ a.count)
          (dupGroupsOf urls))) := by
    rw [List.take_append_drop]
    exact hsorted
  refine ⟨dupGroupsOf_length urls, ?_, ?_, ?_, by decide⟩
  · exact hsorted.sublist (List.take_sublist 10 _)
  · show (List.take 10 (List.insertionSort (fun a b : DupEntry => b.count ≤ a.count)
        (dupGroupsOf urls))).length = min 10 (dupGroupsOf urls).length
    rw [List.length_take, (List.perm_insertionSort _ _).length_eq]
  · refine ⟨List.drop 10 (List.insertionSort (fun a b : DupEntry => b.count ≤ a.count)
      (dupGroupsOf urls)), ?_, ?_⟩
    · show (List.take 10 (List.insertionSort (fun a b : DupEntry => b.count ≤ a.count)
          (dupGroupsOf urls)) ++
        List.drop 10 (List.insertionSort (fun a b : DupEntry => b.count ≤ a.count)
          (dupGroupsOf urls))).Perm _
      rw [List.take_append_drop]
      exact (List.perm_insertionSort _ _).trans (dupGroupsOf_perm urls)
    · intro a ha b hb
      exact (List.pairwise_append.mp hfull).2.2 a ha b hb

/-- Witness for claim C7 on the URL batch ["a", "a", "b"]: one duplicate
group. -/
theorem claim_C7_witness : (_check_duplicate_urls [some "a", some "a", some "b"]).1 = 1 := by
  have h := (claim_C7 [some "a", some "a", some "b"]).1
  rw [h]
  decide

end WatchPulse
